import Mathlib

/-!
Verification development for the ProtoMatcher structural-signature engine
(`proto_matcher.py`).

The development shallowly embeds the core of the script:

* `Sig` models the Python `Signature` values.  A `FrozenMultiset` of field
  entries is represented *canonically*: its elements are sorted by the total
  order `cmpSig` and chained with the `fcons`/`fnil` constructors, so that
  Python multiset equality (`FrozenMultiset.__eq__`) coincides with Lean
  structural equality.  A `frozenset` of enum values is represented as a
  sorted duplicate-free `List Int`.  `mapE` models the `MapEntry` named
  tuple and `absent` models Python `None` (returned for alias enums).
* `get_signature`, `generate_signatures`, `compare_sigs`, `get_matches` and
  `start_sequential_matching` are embedded as fuel-indexed, state-passing
  functions returning `Except PErr _`; `PErr` models the Python exceptions
  that can escape the corresponding code (`KeyError`, `TypeError`,
  `ZeroDivisionError`, `ValueError`, `IndexError`) plus `fuelOut` for
  non-termination of the unguarded recursion.
-/

namespace ProtoMatcher

/-! ## Generic comparison helpers -/

/-- Three-way comparison from a linear order. -/
def cmpL {α : Type} [LinearOrder α] (a b : α) : Ordering :=
  if a < b then .lt else if a = b then .eq else .gt

/-- Lexicographic list comparison from an element comparison. -/
def cmpLex {α : Type} (c : α → α → Ordering) : List α → List α → Ordering
  | [], [] => .eq
  | [], _ :: _ => .lt
  | _ :: _, [] => .gt
  | a :: as, b :: bs => (c a b).then (cmpLex c as bs)

/-! ## Kernel-friendly string comparison

The Python code compares and concatenates strings; we order them by their
character lists (any total order works: it only fixes the canonical
ordering of multiset elements). -/

def cmpChar (a b : Char) : Ordering := cmpL a b

def cmpStr (s t : String) : Ordering := cmpLex cmpChar s.data t.data

def cmpInt (a b : Int) : Ordering := cmpL a b

def cmpIntList (l1 l2 : List Int) : Ordering := cmpLex cmpInt l1 l2

/-! ## Signatures

`Sig` is the model of the Python `Signature` union.  Python values map to
`Sig` values as follows:

* a scalar field entry string `"label type"` ↦ `scalar "label type"`;
* a `FieldTuple(label_type, signature)` ↦ `tup label_type sig`;
* a `FrozenMultiset {e1, …, en}` ↦ `fcons e1' (fcons … fnil)` where
  `e1', …` are the models of the elements in `cmpSig`-sorted order
  (this canonical representation makes Python multiset equality coincide
  with structural equality, see `mkFset_perm` below);
* a `frozenset` of enum values ↦ `eset l` with `l` sorted and
  duplicate-free;
* a `MapEntry(key, value)` ↦ `mapE key value`;
* Python `None` (alias enums) ↦ `absent`.
-/

inductive Sig where
  | scalar : String → Sig
  | tup : String → Sig → Sig
  | fnil : Sig
  | fcons : Sig → Sig → Sig
  | eset : List Int → Sig
  | mapE : Sig → Sig → Sig
  | absent : Sig
deriving DecidableEq, Repr

/-- Constructor index, used to order values of different shapes. -/
def ctorIdx : Sig → Nat
  | .scalar _ => 0
  | .tup _ _ => 1
  | .fnil => 2
  | .fcons _ _ => 3
  | .eset _ => 4
  | .mapE _ _ => 5
  | .absent => 6

/-- Total comparison on `Sig`; only used to fix the canonical element order
inside multisets. -/
def cmpSig : Sig → Sig → Ordering
  | .scalar s, .scalar t => cmpStr s t
  | .tup s x, .tup t y => (cmpStr s t).then (cmpSig x y)
  | .fcons h1 t1, .fcons h2 t2 => (cmpSig h1 h2).then (cmpSig t1 t2)
  | .eset l1, .eset l2 => cmpIntList l1 l2
  | .mapE k1 v1, .mapE k2 v2 => (cmpSig k1 k2).then (cmpSig v1 v2)
  | a, b => cmpL (ctorIdx a) (ctorIdx b)

/-! ## The canonical order on multiset elements -/

def sigLe (a b : Sig) : Prop := cmpSig a b ≠ .gt

instance : DecidableRel sigLe := fun a b => by unfold sigLe; infer_instance

/-! ## Canonical constructors for multisets and sets -/

/-- Chain a list of field entries with `fcons`/`fnil`. -/
def ofFields : List Sig → Sig
  | [] => .fnil
  | x :: xs => .fcons x (ofFields xs)

/-- Spine of an `fcons`/`fnil` chain, inverse of `ofFields`. -/
def toFields : Sig → List Sig
  | .fcons x xs => x :: toFields xs
  | _ => []

/-- Model of `FrozenMultiset(l)`: the canonical (sorted) chain of the
elements of `l`. -/
def mkFset (l : List Sig) : Sig := ofFields (List.insertionSort sigLe l)

/-- Model of `frozenset(l)` for enum values: sorted duplicate-free list. -/
def mkEset (l : List Int) : Sig :=
  .eset (List.insertionSort (fun a b : Int => a ≤ b) l.dedup)

/-- Decidable equality of `Except` results, so concrete runs can be settled
by `decide`. -/
instance {ε α : Type} [DecidableEq ε] [DecidableEq α] : DecidableEq (Except ε α) := fun a b =>
  match a, b with
  | .error e1, .error e2 =>
    match decEq e1 e2 with
    | isTrue h => isTrue (by rw [h])
    | isFalse h => isFalse (by intro hc; cases hc; exact h rfl)
  | .ok v1, .ok v2 =>
    match decEq v1 v2 with
    | isTrue h => isTrue (by rw [h])
    | isFalse h => isFalse (by intro hc; cases hc; exact h rfl)
  | .error _, .ok _ => isFalse (by intro hc; cases hc)
  | .ok _, .error _ => isFalse (by intro hc; cases hc)

/-! ## Python truthiness of signatures

The code tests signatures with `not type_sig` / `if field_type_sig:`;
the falsy signature values are `None`, the empty `FrozenMultiset` and the
empty `frozenset`. -/

def sigFalsy : Sig → Bool
  | .absent => true
  | .fnil => true
  | .eset l => l.isEmpty
  | _ => false

/-! ## String utilities (`strip_proto_name`, `"." in name`) -/

/-- Python `str.removeprefix`. -/
def dropPfx (s p : String) : String :=
  if p.data.isPrefixOf s.data then String.mk (s.data.drop p.data.length) else s

/-- Python `str.removesuffix`. -/
def dropSfx (s p : String) : String :=
  if p.data.isSuffixOf s.data then String.mk (s.data.take (s.data.length - p.data.length)) else s

/-- Embeds `strip_proto_name` (proto_matcher.py line 101):
`name.removeprefix(".").removeprefix(PACKAGE_NAME).removesuffix(".proto")`. -/
def strip_proto_name (pkg : String) (name : String) : String :=
  dropSfx (dropPfx (dropPfx name ".") pkg) ".proto"

/-- Python `"." in name` (the separator is a single character). -/
def hasDot (s : String) : Bool := s.data.any (fun c => c = '.')

/-! ## Descriptor model

External inputs from the protobuf loader, restricted to the attributes the
script reads: field label and wire type (the script only uses their
lowercased names, via `FieldDescriptorProto.Label.Name` /
`.Type.Name`), `type_name`, `oneof_index`, nested types, nested enums,
`oneof_decl` (only its length matters), `options.map_entry`,
enum values and `options.allow_alias`. -/

inductive FLabel where
  | optionalLbl
  | requiredLbl
  | repeatedLbl
deriving DecidableEq

/-- The cardinality string: empty for `LABEL_OPTIONAL`, otherwise the
lowercased keyword followed by a space (proto_matcher.py lines 269-271). -/
def labelStr : FLabel → String
  | .optionalLbl => ""
  | .requiredLbl => "required "
  | .repeatedLbl => "repeated "

inductive FType where
  | tDouble | tFloat | tInt64 | tUint64 | tInt32 | tFixed64 | tFixed32 | tBool
  | tString | tGroup | tMessage | tBytes | tUint32 | tEnum | tSfixed32 | tSfixed64
  | tSint32 | tSint64
deriving DecidableEq

/-- `FieldDescriptorProto.Type.Name(field.type).removeprefix("TYPE_").lower()`
(proto_matcher.py line 272). -/
def typeToken : FType → String
  | .tDouble => "double"
  | .tFloat => "float"
  | .tInt64 => "int64"
  | .tUint64 => "uint64"
  | .tInt32 => "int32"
  | .tFixed64 => "fixed64"
  | .tFixed32 => "fixed32"
  | .tBool => "bool"
  | .tString => "string"
  | .tGroup => "group"
  | .tMessage => "message"
  | .tBytes => "bytes"
  | .tUint32 => "uint32"
  | .tEnum => "enum"
  | .tSfixed32 => "sfixed32"
  | .tSfixed64 => "sfixed64"
  | .tSint32 => "sint32"
  | .tSint64 => "sint64"

structure FieldD where
  label : FLabel
  ftype : FType
  typeName : Option String
  oneofIndex : Option Nat
deriving DecidableEq

structure EnumD where
  name : String
  values : List Int
  allowAlias : Bool
deriving DecidableEq

/-- `DescriptorProto`: name, fields, nested messages, nested enums, number
of `oneof_decl` entries, and the `options.map_entry` flag. -/
inductive MsgD where
  | mk (name : String) (fields : List FieldD) (nested : List MsgD)
      (enums : List EnumD) (oneofCount : Nat) (isMapEntry : Bool)

def MsgD.name : MsgD → String
  | .mk n _ _ _ _ _ => n

def MsgD.fields : MsgD → List FieldD
  | .mk _ f _ _ _ _ => f

def MsgD.nested : MsgD → List MsgD
  | .mk _ _ ns _ _ _ => ns

def MsgD.enums : MsgD → List EnumD
  | .mk _ _ _ es _ _ => es

def MsgD.oneofCount : MsgD → Nat
  | .mk _ _ _ _ c _ => c

def MsgD.isMapEntry : MsgD → Bool
  | .mk _ _ _ _ _ b => b

inductive ProtoRef where
  | msg (m : MsgD)
  | enum (e : EnumD)

/-! ## Errors

`PErr` models the Python exceptions that can escape the embedded code,
plus `fuelOut` standing for non-termination of the unguarded recursion. -/

inductive PErr where
  | fuelOut
  | keyErr (name : String)
  | typeErr
  | zeroDiv
  | valueErr
  | idxErr
deriving DecidableEq

/-! ## Insertion-ordered dictionaries

Python `dict`s preserve insertion order, and assigning to an existing key
keeps its position; modelled by association lists. -/

def lookupA {α : Type} : List (String × α) → String → Option α
  | [], _ => none
  | (k, v) :: rest, name => if k = name then some v else lookupA rest name

def insertA {α : Type} : List (String × α) → String → α → List (String × α)
  | [], name, s => [(name, s)]
  | (k, v) :: rest, name, s =>
    if k = name then (k, s) :: rest else (k, v) :: insertA rest name s

abbrev SigMap := List (String × Sig)

/-! ## Signature generation (`generate_signatures` and its inner
`get_signature`, proto_matcher.py lines 229-310)

The recursion of `get_signature` is unguarded in the source (it can
re-enter a name whose signature is still being computed); the embedding
makes every call consume one unit of fuel and reports exhaustion as
`PErr.fuelOut`.  Results carry the threaded `proto2sig_map` plus a trace
listing, in execution order, each name whose signature body was actually
computed (i.e. each call that got past the memo lookup); the trace is pure
instrumentation used to count signature computations. -/

/-- Embeds `get_enum_sig` (lines 241-243): `None` for alias-bearing enums,
otherwise the `frozenset` of declared numbers. -/
def get_enum_sig (e : EnumD) : Sig :=
  if e.allowAlias then .absent else mkEset e.values

structure GenEnv where
  dmap : List (String × ProtoRef)
  pkg : String
  emptyToBytes : Bool

/-- `proto` argument resolution: `if not proto: proto = descriptor_map[name]`
(line 252-253); a missing name raises `KeyError`. -/
def resolveProto (env : GenEnv) (name : String) : Option ProtoRef → Except PErr ProtoRef
  | some p => .ok p
  | none =>
    match lookupA env.dmap name with
    | some p => .ok p
    | none => .error (.keyErr name)

/-- Nested enum registration (lines 263-266): `if enum_sig := get_enum_sig(e):`
registers only truthy signatures. -/
def registerEnums (parent : String) : SigMap → List EnumD → SigMap
  | m, [] => m
  | m, e :: rest =>
    if sigFalsy (get_enum_sig e) then registerEnums parent m rest
    else registerEnums parent (insertA m (parent ++ "." ++ e.name) (get_enum_sig e)) rest

/-- `oneofs[field.oneof_index].append(field_info)`; the bounds check is done
by the caller, mirroring Python's `IndexError`. -/
def appendBucket : List (List Sig) → Nat → Sig → List (List Sig)
  | [], _, _ => []
  | b :: bs, 0, info => (b ++ [info]) :: bs
  | b :: bs, i+1, info => b :: appendBucket bs i info

mutual
/-- Embeds the inner `get_signature(name, proto)` (lines 245-302). -/
def get_signature (env : GenEnv) : Nat → SigMap → String → Option ProtoRef →
    Except PErr (Sig × SigMap × List String)
  | 0, _, _, _ => .error .fuelOut
  | fuel+1, m, name, pref =>
    match lookupA m name with
    | some s => .ok (s, m, [])
    | none => do
      let p ← resolveProto env name pref
      match p with
      | .enum e => .ok (get_enum_sig e, m, [name])
      | .msg (.mk _ fields nested enums oneofCnt isME) => do
        let (m1, t1) ← processNested env fuel m name nested
        let m2 := registerEnums name m1 enums
        let (entries, buckets, m3, t2) ←
          processFields env fuel m2 (List.replicate oneofCnt []) fields
        let fieldList := entries ++ buckets.map (fun b => Sig.tup "oneof" (mkFset b))
        if isME then
          match fieldList with
          | [k, v] => .ok (.mapE k v, m3, name :: (t1 ++ t2))
          | _ => .error .typeErr
        else
          .ok (mkFset fieldList, m3, name :: (t1 ++ t2))
  termination_by structural fuel _ _ _ => fuel

/-- Nested-message loop (lines 259-261): each nested type is signed and
registered under its dotted qualified name. -/
def processNested (env : GenEnv) : Nat → SigMap → String → List MsgD →
    Except PErr (SigMap × List String)
  | 0, _, _, _ => .error .fuelOut
  | _+1, m, _, [] => .ok (m, [])
  | fuel+1, m, parent, nt :: rest => do
    let nestedName := parent ++ "." ++ nt.name
    let (s, m1, t1) ← get_signature env fuel m nestedName (some (.msg nt))
    let (m2, t2) ← processNested env fuel (insertA m1 nestedName s) parent rest
    .ok (m2, t1 ++ t2)
  termination_by structural fuel _ _ _ => fuel

/-- Field loop (lines 268-291): compute each entry, then either bucket it
into its oneof or append it to the top-level field list. -/
def processFields (env : GenEnv) : Nat → SigMap → List (List Sig) → List FieldD →
    Except PErr (List Sig × List (List Sig) × SigMap × List String)
  | 0, _, _, _ => .error .fuelOut
  | _+1, m, buckets, [] => .ok ([], buckets, m, [])
  | fuel+1, m, buckets, f :: rest => do
    let (info, m1, t1) ← processField env fuel m f
    match f.oneofIndex with
    | some i =>
      if i < buckets.length then do
        let (es, bs, m2, t2) ← processFields env fuel m1 (appendBucket buckets i info) rest
        .ok (es, bs, m2, t1 ++ t2)
      else .error .idxErr
    | none => do
      let (es, bs, m2, t2) ← processFields env fuel m1 buckets rest
      .ok (info :: es, bs, m2, t1 ++ t2)
  termination_by structural fuel _ _ _ => fuel

/-- Single-field processing (lines 268-286).  With a `type_name`, the code
calls `get_signature` once to test truthiness and, unless the
empty-to-bytes collapse fires, a second time for the stored signature
(both calls appear verbatim in the source, lines 276 and 280). -/
def processField (env : GenEnv) : Nat → SigMap → FieldD →
    Except PErr (Sig × SigMap × List String)
  | 0, _, _ => .error .fuelOut
  | fuel+1, m, f =>
    let fieldLabel := labelStr f.label
    let baseType := typeToken f.ftype
    match f.typeName with
    | none => .ok (.scalar (fieldLabel ++ baseType), m, [])
    | some tn => do
      let tname := strip_proto_name env.pkg tn
      let (typeSig, m1, t1) ← get_signature env fuel m tname none
      if env.emptyToBytes && sigFalsy typeSig then
        .ok (.scalar (fieldLabel ++ "bytes"), m1, t1)
      else do
        let (fts, m2, t2) ← get_signature env fuel m1 tname none
        let fieldType := match fts with | .mapE _ _ => "map" | _ => baseType
        let info := if sigFalsy fts then Sig.scalar (fieldLabel ++ fieldType)
                    else Sig.tup (fieldLabel ++ fieldType) fts
        .ok (info, m2, t1 ++ t2)
  termination_by structural fuel _ _ => fuel
end

/-! ## Registry construction (`generate_signatures`, lines 229-310) -/

structure FileD where
  messages : List MsgD
  enums : List EnumD

def addMsgRefs : List (String × ProtoRef) → List MsgD → List (String × ProtoRef)
  | acc, [] => acc
  | acc, msg :: rest => addMsgRefs (insertA acc msg.name (.msg msg)) rest

def addEnumRefs : List (String × ProtoRef) → List EnumD → List (String × ProtoRef)
  | acc, [] => acc
  | acc, e :: rest => addEnumRefs (insertA acc e.name (.enum e)) rest

/-- The `descriptor_map` build (lines 235-239): per file, all top-level
messages then all top-level enums, keyed by simple name. -/
def buildDescriptorMap : List (String × ProtoRef) → List FileD → List (String × ProtoRef)
  | acc, [] => acc
  | acc, f :: rest => buildDescriptorMap (addEnumRefs (addMsgRefs acc f.messages) f.enums) rest

/-- `sig2proto_map[sig].append(name)` with `defaultdict(list)` semantics. -/
def appendGroup : List (Sig × List String) → Sig → String → List (Sig × List String)
  | [], s, n => [(s, [n])]
  | (k, ns) :: rest, s, n =>
    if k = s then (k, ns ++ [n]) :: rest else (k, ns) :: appendGroup rest s n

/-- The top-level loop of `generate_signatures` (lines 304-307). -/
def genLoop (env : GenEnv) (fuel : Nat) :
    SigMap → List (Sig × List String) → List String → List (String × ProtoRef) →
    Except PErr (SigMap × List (Sig × List String) × List String)
  | m, s2p, tr, [] => .ok (m, s2p, tr)
  | m, s2p, tr, (name, p) :: rest => do
    let (s, m1, t) ← get_signature env fuel m name (some p)
    genLoop env fuel (insertA m1 name s) (appendGroup s2p s name) (tr ++ t) rest

structure GenOut where
  proto2sig : SigMap
  sig2proto : List (Sig × List String)
  uniques : List (Sig × String)
  trace : List String

/-- Embeds `generate_signatures` (lines 229-310); `uniques` is
`unique_protos` (line 309). -/
def generate_signatures (env : GenEnv) (fuel : Nat) : Except PErr GenOut := do
  let (m, s2p, tr) ← genLoop env fuel [] [] [] env.dmap
  let uniques := s2p.filterMap (fun p =>
    match p.2 with
    | [n] => some (p.1, n)
    | _ => none)
  .ok ⟨m, s2p, uniques, tr⟩

/-! ## Scorer (`compare_sigs`, proto_matcher.py lines 191-202)

Python shallow lengths: `len` of a `FrozenMultiset` counts multiplicity,
of a `frozenset` its elements, of a `MapEntry`/`FieldTuple` named tuple 2,
of a `str` its characters; `len(None)` raises `TypeError`.
`sig1 & sig2` is multiset intersection between two multisets, set
intersection between two `frozenset`s, and empty between a multiset and a
`frozenset` (their element types — field entries vs. integers — never
compare equal); `&` on a named tuple or `None` raises `TypeError`. -/

def chainLen : Sig → Nat
  | .fcons _ t => chainLen t + 1
  | _ => 0

def sigLen : Sig → Except PErr Nat
  | .scalar s => .ok s.data.length
  | .tup _ _ => .ok 2
  | .fnil => .ok 0
  | .fcons h t => .ok (chainLen (.fcons h t))
  | .eset l => .ok l.length
  | .mapE _ _ => .ok 2
  | .absent => .error .typeErr

/-- Size of the multiset intersection: each element of `l1` found in `l2`
is matched and consumed, so shared elements count up to the minimum
multiplicity in either side. -/
def msetInterLen : List Sig → List Sig → Nat
  | [], _ => 0
  | x :: xs, l2 =>
    if x ∈ l2 then msetInterLen xs (l2.erase x) + 1 else msetInterLen xs l2

def interCount : Sig → Sig → Except PErr Nat
  | .eset l1, .eset l2 => .ok ((l1.filter (fun x => x ∈ l2)).length)
  | .eset _, .fnil => .ok 0
  | .eset _, .fcons _ _ => .ok 0
  | .fnil, .eset _ => .ok 0
  | .fcons _ _, .eset _ => .ok 0
  | .fnil, .fnil => .ok 0
  | .fnil, .fcons _ _ => .ok 0
  | .fcons _ _, .fnil => .ok 0
  | .fcons h t, .fcons h2 t2 => .ok (msetInterLen (toFields (.fcons h t)) (toFields (.fcons h2 t2)))
  | _, _ => .error .typeErr

/-- Embeds `compare_sigs` (lines 191-202):
`score = (|A ∩ B| / |A|) * (min(|A|,|B|) / max(|A|,|B|))`.
`min/max` divides by zero when both lengths are 0 and the final division
divides by zero when `|A| = 0`. -/
def compare_sigs (sig1 sig2 : Sig) : Except PErr ℚ := do
  let l1 ← sigLen sig1
  let l2 ← sigLen sig2
  let i ← interCount sig1 sig2
  if max l1 l2 = 0 then .error .zeroDiv
  else if l1 = 0 then .error .zeroDiv
  else .ok (((i : ℚ) / (l1 : ℚ)) * (((min l1 l2 : Nat) : ℚ) / ((max l1 l2 : Nat) : ℚ)))

/-! ## Match selector (`get_matches`, proto_matcher.py lines 204-227) -/

/-- The score-map build: skip nested (dotted) names, score every other
candidate, keep those at or above the threshold.  Scoring errors
(`TypeError` / `ZeroDivisionError` from `compare_sigs`) propagate. -/
def buildScores (matchSig : Sig) (threshold : ℚ) : SigMap → Except PErr (List (String × ℚ))
  | [] => .ok []
  | (name, sig) :: rest =>
    if hasDot name then buildScores matchSig threshold rest
    else do
      let score ← compare_sigs matchSig sig
      let tail ← buildScores matchSig threshold rest
      if score < threshold then .ok tail else .ok ((name, score) :: tail)

/-- The sort key (lines 218-220):
`score + (1 - (proto_list.index(name) + 1) / len(proto_list)) * 0.5`. -/
def matchKey (protoList : List String) (p : String × ℚ) : ℚ :=
  p.2 + (1 - (((protoList.indexOf p.1 : ℚ) + 1) / (protoList.length : ℚ))) * (1/2)

/-- Python's `sorted(..., key=sort_key, reverse=True)` is a stable
descending sort: order by key descending, ties kept in original
(insertion) order.  Modelled by sorting index-annotated entries. -/
def matchRel (protoList : List String) (a b : Nat × (String × ℚ)) : Prop :=
  matchKey protoList b.2 < matchKey protoList a.2 ∨
    (matchKey protoList a.2 = matchKey protoList b.2 ∧ a.1 ≤ b.1)

instance (protoList : List String) : DecidableRel (matchRel protoList) := fun a b => by
  unfold matchRel; infer_instance

/-- Annotate each entry with its position (the insertion order of the
Python `score_map`). -/
def withIdx : Nat → List (String × ℚ) → List (Nat × (String × ℚ))
  | _, [] => []
  | i, x :: xs => (i, x) :: withIdx (i+1) xs

def sortMatches (protoList : List String) (scores : List (String × ℚ)) : List (String × ℚ) :=
  (List.insertionSort (matchRel protoList) (withIdx 0 scores)).map (fun p => p.2)

/-- Embeds `get_matches` (lines 204-227), returning the displayed view
`matches_sorted[:MAX_DISPLAY_MATCHES]`.  An empty score map short-circuits
(line 215); `proto_list.index` on a name absent from the list raises
`ValueError`. -/
def get_matches (threshold : ℚ) (limit : Nat) (matchSig : Sig) (proto2sig : SigMap)
    (protoList : List String) : Except PErr (List (String × ℚ)) := do
  let scores ← buildScores matchSig threshold proto2sig
  if scores.isEmpty then .ok []
  else if scores.all (fun p => protoList.contains p.1) then
    .ok ((sortMatches protoList scores).take limit)
  else .error .valueErr

/-! ## Sequential matching session (`start_sequential_matching`,
proto_matcher.py lines 312-362)

The blocking `input()` prompt is modelled by a stream of decision strings
(`""` keep, `"1"` skip the reference proto, `"2"` skip the obfuscated
proto; any other answer falls through to keep, exactly as in the code). -/

structure SessEnv where
  refSigs : SigMap
  obsSigs : SigMap
  obsList : List String
  exactMatches : List (String × String)
  decisions : Nat → String
  threshold : ℚ
  limit : Nat

structure SessState where
  obsIndex : Nat
  seqMatches : List (String × String)
  decIdx : Nat
deriving DecidableEq

/-- The inner `while(True)` loop (lines 330-358) for one reference proto.
Every pass either returns (`break` in the source) or advances `obs_index`,
so `|obsList| + 1` units of fuel always suffice. -/
def innerLoop (env : SessEnv) (refProto : String) (refSig : Sig) :
    Nat → SessState → Except PErr SessState
  | 0, _ => .error .fuelOut
  | fuel+1, st =>
    if st.obsIndex + 1 ≥ env.obsList.length then .ok st
    else
      let obsProto := env.obsList.getD st.obsIndex ""
      match lookupA env.obsSigs obsProto with
      | none => innerLoop env refProto refSig fuel {st with obsIndex := st.obsIndex + 1}
      | some obsSig => do
        let score ← compare_sigs refSig obsSig
        if score = 1 then
          .ok {st with seqMatches := insertA st.seqMatches refProto obsProto}
        else do
          let _ ← get_matches env.threshold env.limit refSig env.obsSigs env.obsList
          let d := env.decisions st.decIdx
          let st1 := {st with decIdx := st.decIdx + 1}
          if d = "1" then .ok st1
          else if d = "2" then
            innerLoop env refProto refSig fuel {st1 with obsIndex := st1.obsIndex + 1}
          else .ok {st1 with seqMatches := insertA st1.seqMatches refProto obsProto}

/-- The outer `for ref_proto in ref_proto_list` loop (lines 317-358). -/
def seqLoop (env : SessEnv) : List String → SessState → Except PErr SessState
  | [], st => .ok st
  | refProto :: rest, st =>
    if st.obsIndex + 1 ≥ env.obsList.length then .ok st
    else
      match lookupA env.refSigs refProto with
      | none => seqLoop env rest st
      | some refSig =>
        match lookupA env.exactMatches refProto with
        | some em =>
          if env.obsList.contains em then
            seqLoop env rest {st with seqMatches := insertA st.seqMatches refProto em}
          else .error .valueErr
        | none => do
          let st1 ← innerLoop env refProto refSig (env.obsList.length + 1) st
          seqLoop env rest st1

/-- Embeds `start_sequential_matching` (lines 312-362): runs the session
from a fresh state and returns the accumulated `seq_matches` mapping and
the final obfuscated cursor. -/
def start_sequential_matching (env : SessEnv) (refList : List String) :
    Except PErr (List (String × String) × Nat) := do
  let st ← seqLoop env refList ⟨0, [], 0⟩
  .ok (st.seqMatches, st.obsIndex)

/-! ## Auxiliary definitions used by the specification statements -/

/-- Signatures of the set/multiset shallow container shapes, the domain on
which §4.2 declares the score defined. -/
def isContainer : Sig → Bool
  | .fnil => true
  | .fcons _ _ => true
  | .eset _ => true
  | _ => false

/-- Pure field entry: what `processField` computes when the referenced
type name is already memoized (then both `get_signature` calls are memo
hits and the map is left untouched). -/
def fieldEntry (env : GenEnv) (m : SigMap) (f : FieldD) : Sig :=
  let fieldLabel := labelStr f.label
  let baseType := typeToken f.ftype
  match f.typeName with
  | none => .scalar (fieldLabel ++ baseType)
  | some tn =>
    match lookupA m (strip_proto_name env.pkg tn) with
    | none => .scalar (fieldLabel ++ baseType)
    | some ts =>
      if env.emptyToBytes && sigFalsy ts then .scalar (fieldLabel ++ "bytes")
      else
        let fieldType := match ts with | .mapE _ _ => "map" | _ => baseType
        if sigFalsy ts then Sig.scalar (fieldLabel ++ fieldType)
        else Sig.tup (fieldLabel ++ fieldType) ts

/-- Pure top-level entry list (non-oneof fields, in declaration order). -/
def entriesOf (env : GenEnv) (m : SigMap) (l : List FieldD) : List Sig :=
  (l.filter (fun f => f.oneofIndex = none)).map (fieldEntry env m)

/-- Pure oneof-bucket fold. -/
def bucketsOf (env : GenEnv) (m : SigMap) : List (List Sig) → List FieldD → List (List Sig)
  | buckets, [] => buckets
  | buckets, f :: rest =>
    match f.oneofIndex with
    | some i => bucketsOf env m (appendBucket buckets i (fieldEntry env m f)) rest
    | none => bucketsOf env m buckets rest

/-! ## Concrete inputs used to settle the claims on explicit runs -/

/-- Signature of a message with one plain `int32` field. -/
def sigInt32 : Sig := mkFset [.scalar "int32"]

/-- Signature of a message with one plain `bool` field. -/
def sigBool : Sig := mkFset [.scalar "bool"]

/-- Message `A { B b = 1; }` referencing `B`, declared before `B`. -/
def msgRefB : MsgD := .mk "A" [⟨.optionalLbl, .tMessage, some ".B", none⟩] [] [] 0 false

/-- Message `B { int32 x = 1; }`. -/
def msgB : MsgD := .mk "B" [⟨.optionalLbl, .tInt32, none, none⟩] [] [] 0 false

def envAB : GenEnv := ⟨buildDescriptorMap [] [⟨[msgRefB, msgB], []⟩], "", true⟩

/-- Self-referential message `A { A a = 1; }`. -/
def msgSelfRef : MsgD := .mk "A" [⟨.optionalLbl, .tMessage, some ".A", none⟩] [] [] 0 false

def envSelfRef : GenEnv := ⟨[("A", ProtoRef.msg msgSelfRef)], "", true⟩

/-- A map-entry helper descriptor with key type `int32` and value type
`string`, and the same descriptor with its two synthesized fields permuted. -/
def mapEntryKV : MsgD :=
  .mk "E" [⟨.optionalLbl, .tInt32, none, none⟩, ⟨.optionalLbl, .tString, none, none⟩] [] [] 0 true

def mapEntryVK : MsgD :=
  .mk "E" [⟨.optionalLbl, .tString, none, none⟩, ⟨.optionalLbl, .tInt32, none, none⟩] [] [] 0 true

def envEmpty : GenEnv := ⟨[], "", true⟩

/-- Session input for the cursor-advance claim: two reference protos and
three obfuscated protos, where `A`, `B`, `X` and `Y` all share the
signature `sigInt32`, with no cross-set exact-unique matches and an
operator that always answers "keep". -/
def sessEnvCursor : SessEnv :=
  ⟨[("A", sigInt32), ("B", sigInt32)],
   [("X", sigInt32), ("Y", sigInt32), ("Z", sigBool)],
   ["X", "Y", "Z"], [], fun _ => "", 1/2, 5⟩

/-- Session input for the termination claim: a single obfuscated proto
whose signature matches the reference exactly. -/
def sessEnvLast : SessEnv :=
  ⟨[("A", sigInt32)], [("X", sigInt32)], ["X"], [], fun _ => "", 1/2, 5⟩

/-! ## Order, canonicalization and equality lemmas -/

theorem cmpL_eq_iff {α : Type} [LinearOrder α] (a b : α) :
    cmpL a b = .eq ↔ a = b := by
  unfold cmpL
  split_ifs with h1 h2
  · simp only [reduceCtorEq, false_iff]; exact ne_of_lt h1
  · simp [h2]
  · simp only [reduceCtorEq, false_iff]; exact h2

theorem cmpL_lt_iff {α : Type} [LinearOrder α] (a b : α) :
    cmpL a b = .lt ↔ a < b := by
  unfold cmpL
  split_ifs with h1 h2
  · simp [h1]
  · simp only [reduceCtorEq, false_iff]; exact h2 ▸ lt_irrefl b
  · simp only [reduceCtorEq, false_iff]
    exact fun h => h1 h

theorem cmpL_swap {α : Type} [LinearOrder α] (a b : α) :
    (cmpL a b).swap = cmpL b a := by
  unfold cmpL
  rcases lt_trichotomy a b with h | h | h
  · rw [if_pos h, if_neg (asymm h), if_neg (Ne.symm (ne_of_lt h))]; rfl
  · subst h; simp [Ordering.swap]
  · rw [if_neg (asymm h), if_neg (ne_of_gt h), if_pos h]; rfl

theorem cmpL_lt_trans {α : Type} [LinearOrder α] {a b c : α}
    (h1 : cmpL a b = .lt) (h2 : cmpL b c = .lt) : cmpL a c = .lt := by
  rw [cmpL_lt_iff] at h1 h2 ⊢
  exact lt_trans h1 h2

/-- Ordering.then analysis. -/
theorem then_eq_eq (x y : Ordering) : x.then y = .eq ↔ x = .eq ∧ y = .eq := by
  cases x <;> cases y <;> simp [Ordering.then]

theorem then_eq_lt (x y : Ordering) : x.then y = .lt ↔ x = .lt ∨ (x = .eq ∧ y = .lt) := by
  cases x <;> cases y <;> simp [Ordering.then]

theorem then_eq_gt (x y : Ordering) : x.then y = .gt ↔ x = .gt ∨ (x = .eq ∧ y = .gt) := by
  cases x <;> cases y <;> simp [Ordering.then]

theorem swap_then (x y : Ordering) : (x.then y).swap = x.swap.then y.swap := by
  cases x <;> cases y <;> rfl

theorem cmpLex_eq_iff {α : Type} (c : α → α → Ordering)
    (helem : ∀ a b, c a b = .eq ↔ a = b) :
    ∀ l1 l2 : List α, cmpLex c l1 l2 = .eq ↔ l1 = l2
  | [], [] => by simp [cmpLex]
  | [], _ :: _ => by simp [cmpLex]
  | _ :: _, [] => by simp [cmpLex]
  | a :: as, b :: bs => by
    simp [cmpLex, then_eq_eq, helem, cmpLex_eq_iff c helem as bs]

theorem cmpLex_swap {α : Type} (c : α → α → Ordering)
    (helem : ∀ a b, (c a b).swap = c b a) :
    ∀ l1 l2 : List α, (cmpLex c l1 l2).swap = cmpLex c l2 l1
  | [], [] => by rfl
  | [], _ :: _ => by rfl
  | _ :: _, [] => by rfl
  | a :: as, b :: bs => by
    simp [cmpLex, swap_then, helem, cmpLex_swap c helem as bs]

theorem cmpLex_lt_trans {α : Type} (c : α → α → Ordering)
    (heq : ∀ a b, c a b = .eq ↔ a = b)
    (htr : ∀ a b d, c a b = .lt → c b d = .lt → c a d = .lt) :
    ∀ l1 l2 l3 : List α, cmpLex c l1 l2 = .lt → cmpLex c l2 l3 = .lt →
      cmpLex c l1 l3 = .lt
  | [], [], l3 => fun _ h2 => h2
  | [], _ :: _, [] => fun _ h2 => by simp [cmpLex] at h2
  | [], _ :: _, _ :: _ => fun _ _ => by simp [cmpLex]
  | _ :: _, [], _ => fun h1 _ => by simp [cmpLex] at h1
  | _ :: _, _ :: _, [] => fun _ h2 => by simp [cmpLex] at h2
  | a :: as, b :: bs, d :: ds => fun h1 h2 => by
    simp only [cmpLex, then_eq_lt] at h1 h2 ⊢
    rcases h1 with h1 | ⟨h1e, h1l⟩
    · rcases h2 with h2 | ⟨h2e, h2l⟩
      · exact Or.inl (htr a b d h1 h2)
      · rw [heq] at h2e; subst h2e; exact Or.inl h1
    · rw [heq] at h1e; subst h1e
      rcases h2 with h2 | ⟨h2e, h2l⟩
      · exact Or.inl h2
      · rw [heq] at h2e; subst h2e
        exact Or.inr ⟨(heq _ _).mpr rfl, cmpLex_lt_trans c heq htr as bs ds h1l h2l⟩

theorem string_ext {s t : String} (h : s.data = t.data) : s = t := by
  cases s; cases t; cases h; rfl

theorem cmpStr_eq_iff (s t : String) : cmpStr s t = .eq ↔ s = t := by
  unfold cmpStr
  rw [cmpLex_eq_iff cmpChar (fun a b => cmpL_eq_iff a b)]
  exact ⟨fun h => string_ext h, fun h => h ▸ rfl⟩

theorem cmpStr_swap (s t : String) : (cmpStr s t).swap = cmpStr t s :=
  cmpLex_swap cmpChar (fun a b => cmpL_swap a b) _ _

theorem cmpStr_lt_trans {s t u : String}
    (h1 : cmpStr s t = .lt) (h2 : cmpStr t u = .lt) : cmpStr s u = .lt :=
  cmpLex_lt_trans cmpChar (fun a b => cmpL_eq_iff a b)
    (fun _ _ _ => cmpL_lt_trans) _ _ _ h1 h2

theorem cmpSig_eq_iff : ∀ a b : Sig, cmpSig a b = .eq ↔ a = b := by
  intro a
  induction a with
  | scalar s => intro b; cases b <;> simp [cmpSig, cmpStr_eq_iff, ctorIdx, cmpL]
  | tup s x ih =>
    intro b; cases b <;> simp [cmpSig, ctorIdx, cmpL, then_eq_eq, cmpStr_eq_iff, ih]
  | fnil => intro b; cases b <;> simp [cmpSig, ctorIdx, cmpL]
  | fcons h t ihh iht =>
    intro b; cases b <;> simp [cmpSig, ctorIdx, cmpL, then_eq_eq, ihh, iht]
  | eset l =>
    intro b
    cases b <;>
      simp [cmpSig, ctorIdx, cmpL, cmpIntList, cmpLex_eq_iff cmpInt (fun a b => cmpL_eq_iff a b)]
  | mapE k v ihk ihv =>
    intro b; cases b <;> simp [cmpSig, ctorIdx, cmpL, then_eq_eq, ihk, ihv]
  | absent => intro b; cases b <;> simp [cmpSig, ctorIdx, cmpL]

theorem cmpSig_swap : ∀ a b : Sig, (cmpSig a b).swap = cmpSig b a := by
  intro a
  induction a with
  | scalar s => intro b; cases b <;> simp [cmpSig, cmpStr_swap, ctorIdx, cmpL_swap]
  | tup s x ih =>
    intro b; cases b <;> simp [cmpSig, ctorIdx, cmpL_swap, swap_then, cmpStr_swap, ih]
  | fnil => intro b; cases b <;> simp [cmpSig, ctorIdx, cmpL_swap]
  | fcons h t ihh iht =>
    intro b; cases b <;> simp [cmpSig, ctorIdx, cmpL_swap, swap_then, ihh, iht]
  | eset l =>
    intro b
    cases b <;>
      simp [cmpSig, ctorIdx, cmpL_swap, cmpIntList, cmpLex_swap cmpInt (fun a b => cmpL_swap a b)]
  | mapE k v ihk ihv =>
    intro b; cases b <;> simp [cmpSig, ctorIdx, cmpL_swap, swap_then, ihk, ihv]
  | absent => intro b; cases b <;> simp [cmpSig, ctorIdx, cmpL_swap]

theorem cmpSig_refl (a : Sig) : cmpSig a a = .eq := (cmpSig_eq_iff a a).mpr rfl

theorem ctorIdx_le_of_lt : ∀ a b : Sig, cmpSig a b = .lt → ctorIdx a ≤ ctorIdx b := by
  intro a b
  cases a <;> cases b <;> simp_all [cmpSig, ctorIdx, cmpL]

theorem cmpSig_of_idx_lt : ∀ a b : Sig, ctorIdx a < ctorIdx b → cmpSig a b = .lt := by
  intro a b
  cases a <;> cases b <;> simp_all [cmpSig, ctorIdx, cmpL]

theorem cmpSig_lt_trans : ∀ a b c : Sig,
    cmpSig a b = .lt → cmpSig b c = .lt → cmpSig a c = .lt := by
  intro a
  induction a with
  | scalar s =>
    intro b c h1 h2
    rcases Nat.lt_or_ge (ctorIdx (.scalar s)) (ctorIdx c) with hlt | hge
    · exact cmpSig_of_idx_lt _ _ hlt
    · have i1 := ctorIdx_le_of_lt _ _ h1
      have i2 := ctorIdx_le_of_lt _ _ h2
      have : ctorIdx (.scalar s) = ctorIdx b ∧ ctorIdx b = ctorIdx c := by omega
      cases b <;> cases c <;> simp [ctorIdx] at this <;>
        simp only [cmpSig] at h1 h2 ⊢
      exact cmpStr_lt_trans h1 h2
  | tup s x ih =>
    intro b c h1 h2
    rcases Nat.lt_or_ge (ctorIdx (.tup s x)) (ctorIdx c) with hlt | hge
    · exact cmpSig_of_idx_lt _ _ hlt
    · have i1 := ctorIdx_le_of_lt _ _ h1
      have i2 := ctorIdx_le_of_lt _ _ h2
      have : ctorIdx (.tup s x) = ctorIdx b ∧ ctorIdx b = ctorIdx c := by omega
      cases b <;> cases c <;> simp [ctorIdx] at this <;>
        simp only [cmpSig, then_eq_lt] at h1 h2 ⊢
      rcases h1 with h1 | ⟨h1e, h1l⟩
      · rcases h2 with h2 | ⟨h2e, h2l⟩
        · exact Or.inl (cmpStr_lt_trans h1 h2)
        · rw [cmpStr_eq_iff] at h2e; subst h2e; exact Or.inl h1
      · rw [cmpStr_eq_iff] at h1e; subst h1e
        rcases h2 with h2 | ⟨h2e, h2l⟩
        · exact Or.inl h2
        · rw [cmpStr_eq_iff] at h2e; subst h2e
          exact Or.inr ⟨(cmpStr_eq_iff _ _).mpr rfl, ih _ _ h1l h2l⟩
  | fnil =>
    intro b c h1 h2
    rcases Nat.lt_or_ge (ctorIdx .fnil) (ctorIdx c) with hlt | hge
    · exact cmpSig_of_idx_lt _ _ hlt
    · have i1 := ctorIdx_le_of_lt _ _ h1
      have i2 := ctorIdx_le_of_lt _ _ h2
      have : ctorIdx Sig.fnil = ctorIdx b ∧ ctorIdx b = ctorIdx c := by omega
      cases b <;> cases c <;> simp [ctorIdx] at this <;>
        simp [cmpSig, cmpL] at h1
  | fcons h t ihh iht =>
    intro b c h1 h2
    rcases Nat.lt_or_ge (ctorIdx (.fcons h t)) (ctorIdx c) with hlt | hge
    · exact cmpSig_of_idx_lt _ _ hlt
    · have i1 := ctorIdx_le_of_lt _ _ h1
      have i2 := ctorIdx_le_of_lt _ _ h2
      have : ctorIdx (.fcons h t) = ctorIdx b ∧ ctorIdx b = ctorIdx c := by omega
      cases b <;> cases c <;> simp [ctorIdx] at this <;>
        simp only [cmpSig, then_eq_lt] at h1 h2 ⊢
      rcases h1 with h1 | ⟨h1e, h1l⟩
      · rcases h2 with h2 | ⟨h2e, h2l⟩
        · exact Or.inl (ihh _ _ h1 h2)
        · rw [cmpSig_eq_iff] at h2e; subst h2e; exact Or.inl h1
      · rw [cmpSig_eq_iff] at h1e; subst h1e
        rcases h2 with h2 | ⟨h2e, h2l⟩
        · exact Or.inl h2
        · rw [cmpSig_eq_iff] at h2e; subst h2e
          exact Or.inr ⟨(cmpSig_eq_iff _ _).mpr rfl, iht _ _ h1l h2l⟩
  | eset l =>
    intro b c h1 h2
    rcases Nat.lt_or_ge (ctorIdx (.eset l)) (ctorIdx c) with hlt | hge
    · exact cmpSig_of_idx_lt _ _ hlt
    · have i1 := ctorIdx_le_of_lt _ _ h1
      have i2 := ctorIdx_le_of_lt _ _ h2
      have : ctorIdx (.eset l) = ctorIdx b ∧ ctorIdx b = ctorIdx c := by omega
      cases b <;> cases c <;> simp [ctorIdx] at this <;>
        simp only [cmpSig] at h1 h2 ⊢
      exact cmpLex_lt_trans cmpInt (fun a b => cmpL_eq_iff a b)
        (fun _ _ _ => cmpL_lt_trans) _ _ _ h1 h2
  | mapE k v ihk ihv =>
    intro b c h1 h2
    rcases Nat.lt_or_ge (ctorIdx (.mapE k v)) (ctorIdx c) with hlt | hge
    · exact cmpSig_of_idx_lt _ _ hlt
    · have i1 := ctorIdx_le_of_lt _ _ h1
      have i2 := ctorIdx_le_of_lt _ _ h2
      have : ctorIdx (.mapE k v) = ctorIdx b ∧ ctorIdx b = ctorIdx c := by omega
      cases b <;> cases c <;> simp [ctorIdx] at this <;>
        simp only [cmpSig, then_eq_lt] at h1 h2 ⊢
      rcases h1 with h1 | ⟨h1e, h1l⟩
      · rcases h2 with h2 | ⟨h2e, h2l⟩
        · exact Or.inl (ihk _ _ h1 h2)
        · rw [cmpSig_eq_iff] at h2e; subst h2e; exact Or.inl h1
      · rw [cmpSig_eq_iff] at h1e; subst h1e
        rcases h2 with h2 | ⟨h2e, h2l⟩
        · exact Or.inl h2
        · rw [cmpSig_eq_iff] at h2e; subst h2e
          exact Or.inr ⟨(cmpSig_eq_iff _ _).mpr rfl, ihv _ _ h1l h2l⟩
  | absent =>
    intro b c h1 h2
    rcases Nat.lt_or_ge (ctorIdx .absent) (ctorIdx c) with hlt | hge
    · exact cmpSig_of_idx_lt _ _ hlt
    · have i1 := ctorIdx_le_of_lt _ _ h1
      have i2 := ctorIdx_le_of_lt _ _ h2
      have : ctorIdx Sig.absent = ctorIdx b ∧ ctorIdx b = ctorIdx c := by omega
      cases b <;> cases c <;> simp [ctorIdx] at this <;>
        simp [cmpSig, cmpL] at h1

theorem sigLe_total : ∀ a b : Sig, sigLe a b ∨ sigLe b a := by
  intro a b
  unfold sigLe
  rcases hc : cmpSig a b with _ | _ | _
  · exact Or.inl (by simp [hc])
  · exact Or.inl (by simp [hc])
  · refine Or.inr ?_
    have := cmpSig_swap a b
    rw [hc] at this
    simp [Ordering.swap] at this
    simp [← this]

theorem sigLe_trans : ∀ a b c : Sig, sigLe a b → sigLe b c → sigLe a c := by
  intro a b c h1 h2
  unfold sigLe at h1 h2 ⊢
  rcases hab : cmpSig a b with _ | _ | _
  · rcases hbc : cmpSig b c with _ | _ | _
    · simp [cmpSig_lt_trans a b c hab hbc]
    · rw [cmpSig_eq_iff] at hbc; subst hbc; simp [hab]
    · exact absurd hbc h2
  · rw [cmpSig_eq_iff] at hab; subst hab; exact h2
  · exact absurd hab h1

theorem sigLe_antisymm : ∀ a b : Sig, sigLe a b → sigLe b a → a = b := by
  intro a b h1 h2
  unfold sigLe at h1 h2
  rcases hab : cmpSig a b with _ | _ | _
  · exfalso
    have := cmpSig_swap a b
    rw [hab] at this
    simp [Ordering.swap] at this
    exact h2 this.symm
  · exact (cmpSig_eq_iff a b).mp hab
  · exact absurd hab h1

instance : IsTotal Sig sigLe := ⟨sigLe_total⟩

instance : IsTrans Sig sigLe := ⟨sigLe_trans⟩

instance : IsAntisymm Sig sigLe := ⟨sigLe_antisymm⟩

theorem toFields_ofFields : ∀ l : List Sig, toFields (ofFields l) = l
  | [] => rfl
  | x :: xs => by simp [ofFields, toFields, toFields_ofFields xs]

/-- Python `FrozenMultiset` equality is multiset equality; on the canonical
representation it is plain equality. -/
theorem mkFset_perm {l1 l2 : List Sig} (h : l1.Perm l2) : mkFset l1 = mkFset l2 := by
  unfold mkFset
  congr 1
  refine List.eq_of_perm_of_sorted ?_ (List.sorted_insertionSort sigLe l1)
    (List.sorted_insertionSort sigLe l2)
  exact ((List.perm_insertionSort sigLe l1).trans h).trans
    (List.perm_insertionSort sigLe l2).symm

theorem toFields_mkFset_perm (l : List Sig) : (toFields (mkFset l)).Perm l := by
  rw [mkFset, toFields_ofFields]
  exact List.perm_insertionSort sigLe l

/-! ## Basic facts about the embedded operations -/

/-- A request for an already-registered name is a pure memo hit: it returns
the stored signature, leaves the map untouched and computes nothing. -/
theorem get_signature_memo_hit (env : GenEnv) (fuel : Nat) (m : SigMap) (name : String)
    (pref : Option ProtoRef) (s : Sig) (h : lookupA m name = some s) :
    get_signature env (fuel+1) m name pref = .ok (s, m, []) := by
  unfold get_signature
  rw [h]

theorem chainLen_toFields : ∀ s : Sig, chainLen s = (toFields s).length := by
  intro s
  induction s with
  | fcons h t _ iht => simp [chainLen, toFields, iht]
  | scalar s => rfl
  | tup s x _ => rfl
  | fnil => rfl
  | eset l => rfl
  | mapE k v _ _ => rfl
  | absent => rfl

theorem chainLen_mkFset (l : List Sig) : chainLen (mkFset l) = l.length := by
  rw [chainLen_toFields]
  exact (toFields_mkFset_perm l).length_eq

theorem msetInterLen_self : ∀ l : List Sig, msetInterLen l l = l.length
  | [] => rfl
  | x :: xs => by
    simp [msetInterLen, msetInterLen_self xs]

theorem msetInterLen_le_left : ∀ l1 l2 : List Sig, msetInterLen l1 l2 ≤ l1.length
  | [], _ => Nat.zero_le _
  | x :: xs, l2 => by
    simp only [msetInterLen, List.length_cons]
    split
    · exact Nat.add_le_add_right (msetInterLen_le_left xs (l2.erase x)) 1
    · exact Nat.le_succ_of_le (msetInterLen_le_left xs l2)

/-- The score formula sends `i ≤ na` with positive lengths into `[0, 1]`. -/
theorem score_in_unit (i na nb : Nat) (hna : 0 < na) (hnb : 0 < nb) (hi : i ≤ na) :
    (0:ℚ) ≤ ((i : ℚ) / (na : ℚ)) * (((min na nb : Nat) : ℚ) / ((max na nb : Nat) : ℚ)) ∧
    ((i : ℚ) / (na : ℚ)) * (((min na nb : Nat) : ℚ) / ((max na nb : Nat) : ℚ)) ≤ 1 := by
  have hna' : (0:ℚ) < (na:ℚ) := by exact_mod_cast hna
  have hmaxn : 0 < max na nb := lt_of_lt_of_le hna (le_max_left _ _)
  have hmax : (0:ℚ) < ((max na nb : Nat):ℚ) := by exact_mod_cast hmaxn
  constructor
  · positivity
  · have h1 : ((i:ℚ)/(na:ℚ)) ≤ 1 := by
      rw [div_le_one hna']
      exact_mod_cast hi
    have h2 : (((min na nb : Nat)):ℚ) / (((max na nb : Nat)):ℚ) ≤ 1 := by
      rw [div_le_one hmax]
      exact_mod_cast min_le_max
    have h0 : (0:ℚ) ≤ (((min na nb : Nat)):ℚ) / (((max na nb : Nat)):ℚ) := by positivity
    have h00 : (0:ℚ) ≤ ((i:ℚ)/(na:ℚ)) := by positivity
    calc ((i : ℚ) / (na : ℚ)) * (((min na nb : Nat) : ℚ) / ((max na nb : Nat) : ℚ))
        ≤ 1 * 1 := by gcongr
      _ = 1 := mul_one 1

/-! ## Domain monotonicity of the signature-map state

The threaded `proto2sig_map` only ever gains keys (`insertA` either
replaces a value in place or appends), so a name registered before a call
is still registered afterwards. -/

theorem lookupA_insertA_isSome {α : Type} :
    ∀ (m : List (String × α)) (k' : String) (v : α) (k : String),
    (lookupA m k).isSome → (lookupA (insertA m k' v) k).isSome := by
  intro m k' v
  induction m with
  | nil => intro k h; simp [lookupA] at h
  | cons e rest ih =>
    obtain ⟨ek, ev⟩ := e
    intro k h
    by_cases hk : ek = k'
    · subst hk
      simp only [insertA, if_pos rfl]
      simp only [lookupA] at h ⊢
      by_cases hek : ek = k
      · simp [hek]
      · rw [if_neg hek] at h ⊢
        exact h
    · simp only [insertA, if_neg hk]
      simp only [lookupA] at h ⊢
      by_cases hek : ek = k
      · simp [hek]
      · rw [if_neg hek] at h ⊢
        exact ih k h

theorem registerEnums_mono (parent : String) :
    ∀ (es : List EnumD) (m : SigMap) (k : String),
    (lookupA m k).isSome → (lookupA (registerEnums parent m es) k).isSome := by
  intro es
  induction es with
  | nil => intro m k h; exact h
  | cons e rest ih =>
    intro m k h
    unfold registerEnums
    split
    · exact ih m k h
    · exact ih _ k (lookupA_insertA_isSome m _ _ k h)

/-- All four mutually recursive signature functions preserve registration:
any key registered in the input map is registered in the output map. -/
theorem gen_state_mono : ∀ fuel : Nat,
    (∀ (env : GenEnv) (m : SigMap) (name : String) (p : Option ProtoRef)
       (r : Sig × SigMap × List String), get_signature env fuel m name p = .ok r →
       ∀ k, (lookupA m k).isSome → (lookupA r.2.1 k).isSome) ∧
    (∀ (env : GenEnv) (m : SigMap) (parent : String) (nts : List MsgD)
       (r : SigMap × List String), processNested env fuel m parent nts = .ok r →
       ∀ k, (lookupA m k).isSome → (lookupA r.1 k).isSome) ∧
    (∀ (env : GenEnv) (m : SigMap) (buckets : List (List Sig)) (fs : List FieldD)
       (r : List Sig × List (List Sig) × SigMap × List String),
       processFields env fuel m buckets fs = .ok r →
       ∀ k, (lookupA m k).isSome → (lookupA r.2.2.1 k).isSome) ∧
    (∀ (env : GenEnv) (m : SigMap) (f : FieldD)
       (r : Sig × SigMap × List String), processField env fuel m f = .ok r →
       ∀ k, (lookupA m k).isSome → (lookupA r.2.1 k).isSome) := by
  intro fuel
  induction fuel with
  | zero =>
    refine ⟨?_, ?_, ?_, ?_⟩
    · intro env m name p r h
      exact absurd h (by intro hc; cases hc)
    · intro env m parent nts r h
      exact absurd h (by intro hc; cases hc)
    · intro env m buckets fs r h
      exact absurd h (by intro hc; cases hc)
    · intro env m f r h
      exact absurd h (by intro hc; cases hc)
  | succ fuel ih =>
    obtain ⟨ihSig, ihNested, ihFields, ihField⟩ := ih
    refine ⟨?_, ?_, ?_, ?_⟩
    · -- get_signature
      intro env m name p r h k hk
      unfold get_signature at h
      cases hmm : lookupA m name with
      | some s =>
        rw [hmm] at h
        injection h with h
        rw [← h]
        exact hk
      | none =>
        rw [hmm] at h
        simp only [bind, Except.bind] at h
        cases hres : resolveProto env name p with
        | error e => rw [hres] at h; simp at h
        | ok pr =>
          rw [hres] at h
          simp only at h
          cases pr with
          | enum e =>
            injection h with h
            rw [← h]
            exact hk
          | msg msg =>
            obtain ⟨mname, fields, nested, enums, cnt, isME⟩ := msg
            simp only at h
            cases hpn : processNested env fuel m name nested with
            | error e => rw [hpn] at h; simp at h
            | ok pr1 =>
              obtain ⟨m1, t1⟩ := pr1
              rw [hpn] at h
              simp only at h
              cases hpf : processFields env fuel (registerEnums name m1 enums)
                  (List.replicate cnt []) fields with
              | error e => rw [hpf] at h; simp at h
              | ok q =>
                obtain ⟨entries, buckets, m3, t2⟩ := q
                rw [hpf] at h
                simp only at h
                have hk1 : (lookupA m1 k).isSome := ihNested env m name nested (m1, t1) hpn k hk
                have hk2 : (lookupA (registerEnums name m1 enums) k).isSome :=
                  registerEnums_mono name enums m1 k hk1
                have hk3 : (lookupA m3 k).isSome :=
                  ihFields env (registerEnums name m1 enums) (List.replicate cnt []) fields
                    (entries, buckets, m3, t2) hpf k hk2
                cases hme : isME with
                | true =>
                  rw [hme] at h
                  simp only [if_true] at h
                  cases hfl : entries ++ buckets.map (fun b => Sig.tup "oneof" (mkFset b)) with
                  | nil => rw [hfl] at h; simp at h
                  | cons x rest =>
                    cases rest with
                    | nil => rw [hfl] at h; simp at h
                    | cons y rest2 =>
                      cases rest2 with
                      | nil =>
                        rw [hfl] at h
                        simp only at h
                        injection h with h
                        rw [← h]
                        exact hk3
                      | cons z rest3 => rw [hfl] at h; simp at h
                | false =>
                  rw [hme] at h
                  simp only [Bool.false_eq_true, if_false] at h
                  injection h with h
                  rw [← h]
                  exact hk3
    · -- processNested
      intro env m parent nts r h k hk
      cases nts with
      | nil =>
        unfold processNested at h
        injection h with h
        rw [← h]
        exact hk
      | cons nt rest =>
        unfold processNested at h
        simp only [bind, Except.bind] at h
        cases hgs : get_signature env fuel m (parent ++ "." ++ nt.name) (some (.msg nt)) with
        | error e => rw [hgs] at h; simp at h
        | ok q =>
          obtain ⟨s, m1, t1⟩ := q
          rw [hgs] at h
          simp only at h
          cases hpn : processNested env fuel (insertA m1 (parent ++ "." ++ nt.name) s)
              parent rest with
          | error e => rw [hpn] at h; simp at h
          | ok q2 =>
            obtain ⟨m2, t2⟩ := q2
            rw [hpn] at h
            simp only at h
            injection h with h
            rw [← h]
            have hk1 : (lookupA m1 k).isSome :=
              ihSig env m (parent ++ "." ++ nt.name) (some (.msg nt)) (s, m1, t1) hgs k hk
            have hk2 : (lookupA (insertA m1 (parent ++ "." ++ nt.name) s) k).isSome :=
              lookupA_insertA_isSome m1 _ s k hk1
            exact ihNested env _ parent rest (m2, t2) hpn k hk2
    · -- processFields
      intro env m buckets fs r h k hk
      cases fs with
      | nil =>
        unfold processFields at h
        injection h with h
        rw [← h]
        exact hk
      | cons f rest =>
        unfold processFields at h
        simp only [bind, Except.bind] at h
        cases hpf : processField env fuel m f with
        | error e => rw [hpf] at h; simp at h
        | ok q =>
          obtain ⟨info, m1, t1⟩ := q
          rw [hpf] at h
          simp only at h
          have hk1 : (lookupA m1 k).isSome := ihField env m f (info, m1, t1) hpf k hk
          cases hoi : f.oneofIndex with
          | some i =>
            rw [hoi] at h
            simp only at h
            by_cases hlt : i < buckets.length
            · rw [if_pos hlt] at h
              try simp only [bind, Except.bind] at h
              cases hrest : processFields env fuel m1 (appendBucket buckets i info) rest with
              | error e => rw [hrest] at h; simp at h
              | ok q2 =>
                obtain ⟨es, bs, m2, t2⟩ := q2
                rw [hrest] at h
                simp only at h
                injection h with h
                rw [← h]
                exact ihFields env m1 _ rest (es, bs, m2, t2) hrest k hk1
            · rw [if_neg hlt] at h
              simp at h
          | none =>
            rw [hoi] at h
            simp only [bind, Except.bind] at h
            cases hrest : processFields env fuel m1 buckets rest with
            | error e => rw [hrest] at h; simp at h
            | ok q2 =>
              obtain ⟨es, bs, m2, t2⟩ := q2
              rw [hrest] at h
              simp only at h
              injection h with h
              rw [← h]
              exact ihFields env m1 buckets rest (es, bs, m2, t2) hrest k hk1
    · -- processField
      intro env m f r h k hk
      unfold processField at h
      cases htn : f.typeName with
      | none =>
        rw [htn] at h
        injection h with h
        rw [← h]
        exact hk
      | some tn =>
        rw [htn] at h
        simp only [bind, Except.bind] at h
        cases hgs : get_signature env fuel m (strip_proto_name env.pkg tn) none with
        | error e => rw [hgs] at h; simp at h
        | ok q =>
          obtain ⟨ts, m1, t1⟩ := q
          rw [hgs] at h
          simp only at h
          have hk1 : (lookupA m1 k).isSome :=
            ihSig env m (strip_proto_name env.pkg tn) none (ts, m1, t1) hgs k hk
          by_cases hcoll : env.emptyToBytes && sigFalsy ts
          · rw [if_pos hcoll] at h
            injection h with h
            rw [← h]
            exact hk1
          · rw [if_neg hcoll] at h
            try simp only [bind, Except.bind] at h
            cases hgs2 : get_signature env fuel m1 (strip_proto_name env.pkg tn) none with
            | error e => rw [hgs2] at h; simp at h
            | ok q2 =>
              obtain ⟨fts, m2, t2⟩ := q2
              rw [hgs2] at h
              simp only at h
              injection h with h
              rw [← h]
              exact ihSig env m1 (strip_proto_name env.pkg tn) none (fts, m2, t2) hgs2 k hk1

/-! ## Pure evaluation of the field loop when all referenced names are
already memoized -/

theorem appendBucket_length : ∀ (b : List (List Sig)) (i : Nat) (s : Sig),
    (appendBucket b i s).length = b.length
  | [], _, _ => rfl
  | _ :: _, 0, _ => rfl
  | x :: xs, i+1, s => by simp [appendBucket, appendBucket_length xs i s]

/-- With the referenced name memoized, `processField` is the pure
`fieldEntry` and leaves the state untouched. -/
theorem processField_memo (env : GenEnv) (fuel : Nat) (m : SigMap) (f : FieldD)
    (href : ∀ tn, f.typeName = some tn →
      (lookupA m (strip_proto_name env.pkg tn)).isSome) :
    processField env (fuel+2) m f = .ok (fieldEntry env m f, m, []) := by
  unfold processField fieldEntry
  cases htn : f.typeName with
  | none => simp
  | some tn =>
    obtain ⟨s, hs⟩ := Option.isSome_iff_exists.mp (href tn htn)
    simp only [bind, Except.bind, hs]
    rw [get_signature_memo_hit env fuel m (strip_proto_name env.pkg tn) none s hs]
    by_cases hcoll : env.emptyToBytes && sigFalsy s
    · simp only [hcoll, if_true]
    · simp only [hcoll, Bool.false_eq_true, if_false]
      rw [get_signature_memo_hit env fuel m (strip_proto_name env.pkg tn) none s hs]
      rfl

/-- With all referenced names memoized, enough fuel and all oneof indices
in range, the field loop evaluates purely to `entriesOf` / `bucketsOf`. -/
theorem processFields_memo (env : GenEnv) :
    ∀ (fs : List FieldD) (fuel : Nat) (m : SigMap) (buckets : List (List Sig)),
    (∀ f ∈ fs, ∀ tn, f.typeName = some tn →
      (lookupA m (strip_proto_name env.pkg tn)).isSome) →
    (∀ f ∈ fs, ∀ i, f.oneofIndex = some i → i < buckets.length) →
    fs.length + 3 ≤ fuel →
    processFields env fuel m buckets fs =
      .ok (entriesOf env m fs, bucketsOf env m buckets fs, m, []) := by
  intro fs
  induction fs with
  | nil =>
    intro fuel m buckets href hidx hfuel
    obtain ⟨g, rfl⟩ : ∃ g, fuel = g + 1 := ⟨fuel - 1, by omega⟩
    simp [processFields, entriesOf, bucketsOf]
  | cons f rest ih =>
    intro fuel m buckets href hidx hfuel
    obtain ⟨g2, rfl⟩ : ∃ g2, fuel = g2 + 3 := ⟨fuel - 3, by omega⟩
    show processFields env ((g2+2)+1) m buckets (f :: rest) = _
    unfold processFields
    rw [processField_memo env g2 m f (fun tn htn => href f (List.mem_cons_self f rest) tn htn)]
    simp only [bind, Except.bind]
    cases hoi : f.oneofIndex with
    | some i =>
      have hlt : i < buckets.length := hidx f (List.mem_cons_self f rest) i hoi
      dsimp only
      rw [if_pos hlt]
      rw [ih (g2+2) m (appendBucket buckets i (fieldEntry env m f))
        (fun f' hf' tn htn => href f' (List.mem_cons_of_mem f hf') tn htn)
        (fun f' hf' i' hoi' => by
          rw [appendBucket_length]
          exact hidx f' (List.mem_cons_of_mem f hf') i' hoi')
        (by simp at hfuel ⊢; omega)]
      simp only [bind, Except.bind, List.append_nil]
      simp [entriesOf, bucketsOf, hoi, List.filter_cons]
    | none =>
      dsimp only
      rw [ih (g2+2) m buckets
        (fun f' hf' tn htn => href f' (List.mem_cons_of_mem f hf') tn htn)
        (fun f' hf' i' hoi' => hidx f' (List.mem_cons_of_mem f hf') i' hoi')
        (by simp at hfuel ⊢; omega)]
      simp only [bind, Except.bind, List.append_nil]
      simp [entriesOf, bucketsOf, hoi, List.filter_cons]

/-- With all referenced names memoized and enough fuel, an out-of-range
oneof index makes the field loop raise `IndexError`. -/
theorem processFields_idxErr (env : GenEnv) :
    ∀ (fs : List FieldD) (fuel : Nat) (m : SigMap) (buckets : List (List Sig)),
    (∀ f ∈ fs, ∀ tn, f.typeName = some tn →
      (lookupA m (strip_proto_name env.pkg tn)).isSome) →
    fs.length + 3 ≤ fuel →
    (∃ f ∈ fs, ∃ i, f.oneofIndex = some i ∧ ¬ i < buckets.length) →
    processFields env fuel m buckets fs = .error .idxErr := by
  intro fs
  induction fs with
  | nil =>
    intro fuel m buckets href hfuel hbad
    simp at hbad
  | cons f rest ih =>
    intro fuel m buckets href hfuel hbad
    obtain ⟨g2, rfl⟩ : ∃ g2, fuel = g2 + 3 := ⟨fuel - 3, by omega⟩
    show processFields env ((g2+2)+1) m buckets (f :: rest) = _
    unfold processFields
    rw [processField_memo env g2 m f (fun tn htn => href f (List.mem_cons_self f rest) tn htn)]
    simp only [bind, Except.bind]
    cases hoi : f.oneofIndex with
    | some i =>
      dsimp only
      by_cases hlt : i < buckets.length
      · rw [if_pos hlt]
        have hbad' : ∃ f' ∈ rest, ∃ i', f'.oneofIndex = some i' ∧
            ¬ i' < (appendBucket buckets i (fieldEntry env m f)).length := by
          obtain ⟨fb, hfb, ib, hib, hnb⟩ := hbad
          rcases List.mem_cons.mp hfb with rfl | hfb'
          · rw [hoi] at hib
            injection hib with hib
            exact absurd (hib ▸ hlt) hnb
          · exact ⟨fb, hfb', ib, hib, by rw [appendBucket_length]; exact hnb⟩
        rw [ih (g2+2) m (appendBucket buckets i (fieldEntry env m f))
          (fun f' hf' tn htn => href f' (List.mem_cons_of_mem f hf') tn htn)
          (by simp at hfuel ⊢; omega) hbad']
      · rw [if_neg hlt]
    | none =>
      have hbad' : ∃ f' ∈ rest, ∃ i', f'.oneofIndex = some i' ∧ ¬ i' < buckets.length := by
        obtain ⟨fb, hfb, ib, hib, hnb⟩ := hbad
        rcases List.mem_cons.mp hfb with rfl | hfb'
        · rw [hoi] at hib
          cases hib
        · exact ⟨fb, hfb', ib, hib, hnb⟩
      dsimp only
      rw [ih (g2+2) m buckets
        (fun f' hf' tn htn => href f' (List.mem_cons_of_mem f hf') tn htn)
        (by simp at hfuel ⊢; omega) hbad']

/-! ## Permutation invariance of the pure field loop -/

theorem entriesOf_perm (env : GenEnv) (m : SigMap) {l1 l2 : List FieldD}
    (h : l1.Perm l2) : (entriesOf env m l1).Perm (entriesOf env m l2) :=
  (h.filter _).map _

theorem forall2_perm_refl : ∀ b : List (List Sig), List.Forall₂ List.Perm b b
  | [] => List.Forall₂.nil
  | x :: xs => List.Forall₂.cons (List.Perm.refl x) (forall2_perm_refl xs)

theorem forall2_perm_trans : ∀ {a b c : List (List Sig)},
    List.Forall₂ List.Perm a b → List.Forall₂ List.Perm b c →
    List.Forall₂ List.Perm a c := by
  intro a b c hab hbc
  induction hab generalizing c with
  | nil => cases hbc; exact List.Forall₂.nil
  | cons hxy hrest ih =>
    cases hbc with
    | cons hyz hrest2 => exact List.Forall₂.cons (hxy.trans hyz) (ih hrest2)

theorem appendBucket_forall2 : ∀ (b b' : List (List Sig)) (i : Nat) (s : Sig),
    List.Forall₂ List.Perm b b' →
    List.Forall₂ List.Perm (appendBucket b i s) (appendBucket b' i s) := by
  intro b
  induction b with
  | nil => intro b' i s h; cases h; exact List.Forall₂.nil
  | cons x xs ih =>
    intro b' i s h
    cases h with
    | cons hxy hrest =>
      cases i with
      | zero => exact List.Forall₂.cons (hxy.append (List.Perm.refl [s])) hrest
      | succ k => exact List.Forall₂.cons hxy (ih _ k s hrest)

theorem appendBucket_comm : ∀ {b b' : List (List Sig)},
    List.Forall₂ List.Perm b b' → ∀ (i j : Nat) (s t : Sig),
    List.Forall₂ List.Perm (appendBucket (appendBucket b i s) j t)
      (appendBucket (appendBucket b' j t) i s) := by
  intro b b' h
  induction h with
  | nil => intro i j s t; exact List.Forall₂.nil
  | cons hxy hrest ih =>
    rename_i x y xs ys
    intro i j s t
    match i, j with
    | 0, 0 =>
      simp only [appendBucket]
      refine List.Forall₂.cons ?_ hrest
      have h1 : (x ++ [s]) ++ [t] = x ++ [s, t] := by simp
      have h2 : (y ++ [t]) ++ [s] = y ++ [t, s] := by simp
      rw [h1, h2]
      exact hxy.append (List.Perm.swap t s [])
    | 0, k+1 =>
      simp only [appendBucket]
      exact List.Forall₂.cons (hxy.append (List.Perm.refl [s]))
        (appendBucket_forall2 xs ys k t hrest)
    | k+1, 0 =>
      simp only [appendBucket]
      exact List.Forall₂.cons (hxy.append (List.Perm.refl [t]))
        (appendBucket_forall2 xs ys k s hrest)
    | k+1, k2+1 =>
      simp only [appendBucket]
      exact List.Forall₂.cons hxy (ih k k2 s t)

theorem bucketsOf_congr (env : GenEnv) (m : SigMap) :
    ∀ (l : List FieldD) (b b' : List (List Sig)),
    List.Forall₂ List.Perm b b' →
    List.Forall₂ List.Perm (bucketsOf env m b l) (bucketsOf env m b' l) := by
  intro l
  induction l with
  | nil => intro b b' h; exact h
  | cons f rest ih =>
    intro b b' h
    unfold bucketsOf
    cases hoi : f.oneofIndex with
    | some i => exact ih _ _ (appendBucket_forall2 b b' i (fieldEntry env m f) h)
    | none => exact ih b b' h

theorem bucketsOf_perm (env : GenEnv) (m : SigMap) :
    ∀ {l1 l2 : List FieldD}, l1.Perm l2 →
    ∀ (b b' : List (List Sig)), List.Forall₂ List.Perm b b' →
    List.Forall₂ List.Perm (bucketsOf env m b l1) (bucketsOf env m b' l2) := by
  intro l1 l2 hperm
  induction hperm with
  | nil => intro b b' h; exact h
  | cons f _ ih =>
    intro b b' h
    unfold bucketsOf
    cases hoi : f.oneofIndex with
    | some i => exact ih _ _ (appendBucket_forall2 b b' i (fieldEntry env m f) h)
    | none => exact ih b b' h
  | swap f g l =>
    intro b b' h
    show List.Forall₂ List.Perm (bucketsOf env m b (g :: f :: l))
      (bucketsOf env m b' (f :: g :: l))
    unfold bucketsOf
    cases hog : g.oneofIndex with
    | some ig =>
      cases hof : f.oneofIndex with
      | some jf =>
        unfold bucketsOf
        rw [hof, hog]
        exact bucketsOf_congr env m l _ _
          (appendBucket_comm h ig jf (fieldEntry env m g) (fieldEntry env m f))
      | none =>
        unfold bucketsOf
        rw [hof, hog]
        exact bucketsOf_congr env m l _ _
          (appendBucket_forall2 b b' ig (fieldEntry env m g) h)
    | none =>
      cases hof : f.oneofIndex with
      | some jf =>
        unfold bucketsOf
        rw [hof, hog]
        exact bucketsOf_congr env m l _ _
          (appendBucket_forall2 b b' jf (fieldEntry env m f) h)
      | none =>
        unfold bucketsOf
        rw [hof, hog]
        exact bucketsOf_congr env m l b b' h
  | trans h12 h23 ih1 ih2 =>
    intro b b' h
    exact forall2_perm_trans (ih1 b b (forall2_perm_refl b)) (ih2 b b' h)

theorem map_tup_mkFset_eq : ∀ {bs1 bs2 : List (List Sig)},
    List.Forall₂ List.Perm bs1 bs2 →
    bs1.map (fun b => Sig.tup "oneof" (mkFset b)) =
      bs2.map (fun b => Sig.tup "oneof" (mkFset b)) := by
  intro bs1 bs2 h
  induction h with
  | nil => rfl
  | cons hxy _ ih => simp [mkFset_perm hxy, ih]

/-! ## Facts about the match selector's stable descending sort -/

theorem matchRel_total (pl : List String) :
    ∀ a b : Nat × (String × ℚ), matchRel pl a b ∨ matchRel pl b a := by
  intro a b
  unfold matchRel
  rcases lt_trichotomy (matchKey pl a.2) (matchKey pl b.2) with h | h | h
  · exact Or.inr (Or.inl h)
  · rcases Nat.le_total a.1 b.1 with hi | hi
    · exact Or.inl (Or.inr ⟨h, hi⟩)
    · exact Or.inr (Or.inr ⟨h.symm, hi⟩)
  · exact Or.inl (Or.inl h)

theorem matchRel_trans (pl : List String) :
    ∀ a b c : Nat × (String × ℚ), matchRel pl a b → matchRel pl b c → matchRel pl a c := by
  intro a b c h1 h2
  unfold matchRel at h1 h2 ⊢
  rcases h1 with h1 | ⟨h1e, h1i⟩
  · rcases h2 with h2 | ⟨h2e, h2i⟩
    · exact Or.inl (lt_trans h2 h1)
    · exact Or.inl (h2e ▸ h1)
  · rcases h2 with h2 | ⟨h2e, h2i⟩
    · exact Or.inl (h1e ▸ h2)
    · exact Or.inr ⟨h1e.trans h2e, h1i.trans h2i⟩

instance (pl : List String) : IsTotal (Nat × (String × ℚ)) (matchRel pl) :=
  ⟨matchRel_total pl⟩

instance (pl : List String) : IsTrans (Nat × (String × ℚ)) (matchRel pl) :=
  ⟨matchRel_trans pl⟩

theorem withIdx_map_snd : ∀ (i : Nat) (l : List (String × ℚ)),
    (withIdx i l).map (fun p => p.2) = l
  | _, [] => rfl
  | i, x :: xs => by simp [withIdx, withIdx_map_snd (i+1) xs]

theorem mem_withIdx : ∀ (i : Nat) (l : List (String × ℚ)) (p : Nat × (String × ℚ)),
    p ∈ withIdx i l → p.2 ∈ l
  | i, [], p => by simp [withIdx]
  | i, x :: xs, p => by
    simp only [withIdx, List.mem_cons]
    rintro (rfl | h)
    · exact Or.inl rfl
    · exact Or.inr (mem_withIdx (i+1) xs p h)

/-- Every survivor produced by the score-map build meets the threshold, is
a non-nested name, and carries the score of its registry signature. -/
theorem buildScores_mem (matchSig : Sig) (th : ℚ) :
    ∀ (m : SigMap) (svs : List (String × ℚ)), buildScores matchSig th m = .ok svs →
    ∀ p ∈ svs, th ≤ p.2 ∧ hasDot p.1 = false ∧
      ∃ sig, (p.1, sig) ∈ m ∧ compare_sigs matchSig sig = .ok p.2 := by
  intro m
  induction m with
  | nil =>
    intro svs h p hp
    simp only [buildScores] at h
    injection h with h
    subst h
    simp at hp
  | cons entry rest ih =>
    obtain ⟨name, sig⟩ := entry
    intro svs h p hp
    by_cases hdot : hasDot name = true
    · simp only [buildScores, hdot, if_true] at h
      obtain ⟨hth, hd, sig', hmem, hcmp⟩ := ih svs h p hp
      exact ⟨hth, hd, sig', List.mem_cons_of_mem _ hmem, hcmp⟩
    · simp only [buildScores, hdot, if_false, Bool.false_eq_true, bind, Except.bind] at h
      cases hc : compare_sigs matchSig sig with
      | error e => rw [hc] at h; simp at h
      | ok score =>
        rw [hc] at h
        simp only at h
        cases hb : buildScores matchSig th rest with
        | error e => rw [hb] at h; simp at h
        | ok tail =>
          rw [hb] at h
          simp only at h
          by_cases hlt : score < th
          · rw [if_pos hlt] at h
            injection h with h
            subst h
            obtain ⟨hth, hd, sig', hmem, hcmp⟩ := ih tail hb p hp
            exact ⟨hth, hd, sig', List.mem_cons_of_mem _ hmem, hcmp⟩
          · rw [if_neg hlt] at h
            injection h with h
            subst h
            rcases List.mem_cons.mp hp with rfl | hptail
            · exact ⟨le_of_not_lt hlt, Bool.not_eq_true _ ▸ eq_false_of_ne_true hdot,
                sig, List.mem_cons_self _ _, hc⟩
            · obtain ⟨hth, hd, sig', hmem, hcmp⟩ := ih tail hb p hptail
              exact ⟨hth, hd, sig', List.mem_cons_of_mem _ hmem, hcmp⟩


/-- C1: in the sequential matching session, when the reference signature
and the signature at the current obfuscated cursor compare with
`score == 1.0` (or the external decision is accept), the claim states that
the pairing is recorded and *both* cursors advance.  The code records the
pairing but never advances the obfuscated cursor on acceptance: in this
run, `A` is paired with `X` on an exact score-1 match, yet the next
reference proto `B` is compared against the same `X` again (and pairs
with it), and the final obfuscated cursor is still `0`. -/
theorem c1_accept_does_not_advance_obs_cursor :
    start_sequential_matching sessEnvCursor ["A", "B"] =
      .ok ([("A", "X"), ("B", "X")], 0) ∧
    compare_sigs sigInt32 sigInt32 = .ok 1 := by
  constructor
  · with_unfolding_all decide
  · with_unfolding_all decide

/-- C2: the claim states that zero-shallow-cardinality signatures are
excluded from scoring so that no division-by-zero is ever raised during
ranking.  The code has no such exclusion: ranking an empty-message
signature (shallow cardinality 0) against a single ordinary candidate
invokes the scorer, which raises `ZeroDivisionError`. -/
theorem c2_zero_cardinality_target_raises :
    sigLen (mkFset []) = .ok 0 ∧
    get_matches (1/2) 5 (mkFset []) [("P", sigInt32)] ["P"] = .error .zeroDiv := by
  constructor
  · rfl
  · with_unfolding_all decide

/-- C3 counterexample: the claim states that a signature is computed at
most once per name and that cross-references return the memoized result.
In a registry with `A { B b = 1; }` declared before `B { int32 x = 1; }`,
the signature of `B` is computed three times: twice while processing `A`'s
field (the truthiness test and the stored result are separate
`get_signature` calls, and neither registers `B`), and once more by the
top-level loop, because completing a computation does not memoize it —
only the caller's assignment does. -/
theorem c3_signature_recomputed_counterexample :
    (generate_signatures envAB 10).map GenOut.trace = .ok ["A", "B", "B", "B"] ∧
    (generate_signatures envAB 10).map (fun o => o.trace.count "B") = .ok 3 := by
  constructor
  · decide
  · decide

/-- C3 (amended): a request for a qualified name that is already registered
in the signature map returns the memoized signature without recomputing
anything; names become registered when their parent registers a nested
type or when the top-level registry loop stores its result, so only
cross-references to not-yet-registered names recompute. -/
theorem c3_memoized_name_returns_cached (env : GenEnv) (fuel : Nat) (m : SigMap)
    (name : String) (pref : Option ProtoRef) (s : Sig)
    (h : lookupA m name = some s) :
    get_signature env (fuel+1) m name pref = .ok (s, m, []) :=
  get_signature_memo_hit env fuel m name pref s h

theorem c3_memoized_name_returns_cached_witness :
    get_signature envAB 1 [("B", sigInt32)] "B" none = .ok (sigInt32, [("B", sigInt32)], []) :=
  c3_memoized_name_returns_cached envAB 0 [("B", sigInt32)] "B" none sigInt32 (by decide)

/-- C4 counterexample: the claim states that the session keeps processing
while the obfuscated cursor points at any entry, including the last one.
With a single obfuscated proto whose signature matches the reference
exactly, the session records nothing and ends immediately: the guard
`obs_index + 1 >= len(obs_proto_list)` fires while the cursor points at
the (last) entry `X`. -/
theorem c4_last_entry_unprocessed_counterexample :
    start_sequential_matching sessEnvLast ["A"] = .ok ([], 0) ∧
    compare_sigs sigInt32 sigInt32 = .ok 1 ∧
    sessEnvLast.obsList.length = 1 := by
  refine ⟨by decide, ?_, by decide⟩
  with_unfolding_all decide

/-- C4 (amended): the session ends as soon as the obfuscated cursor sits
at the last entry or beyond (`obs_index + 1 ≥ |obsList|`) — so the last
obfuscated entry is never processed — or when the reference list is
exhausted. -/
theorem c4_session_stops_before_last_entry (env : SessEnv) (refList : List String)
    (st : SessState) (h : st.obsIndex + 1 ≥ env.obsList.length) :
    seqLoop env refList st = .ok st := by
  cases refList with
  | nil => rfl
  | cons r rest =>
    unfold seqLoop
    rw [if_pos h]

theorem c4_session_stops_before_last_entry_witness :
    seqLoop sessEnvLast ["A"] ⟨0, [], 0⟩ = .ok ⟨0, [], 0⟩ :=
  c4_session_stops_before_last_entry sessEnvLast ["A"] ⟨0, [], 0⟩ (by decide)

/-- C5 counterexample: the claim states `score(S,S) = 1.0` for *every*
non-empty signature.  A `MapEntry` signature is non-empty (shallow
cardinality 2), yet scoring it against itself raises `TypeError` (`&` on
named tuples), so the score is not `1.0` — the scorer is only defined on
the set/multiset container shapes. -/
theorem c5_map_entry_score_raises_counterexample :
    compare_sigs (.mapE (.scalar "int32") (.scalar "string"))
        (.mapE (.scalar "int32") (.scalar "string")) = .error .typeErr ∧
    sigLen (.mapE (.scalar "int32") (.scalar "string")) = .ok 2 := by
  constructor
  · decide
  · decide

/-- C5 (amended): for every non-empty signature `S` of set or multiset
shape, `score(S,S) = 1.0`; and for every pair of such non-empty
signatures `A`, `B`, the score is defined and lies in `[0,1]`, where the
score is `(|A ∩ B| / |A|) * (min(|A|,|B|) / max(|A|,|B|))` with multiset
intersection and shallow cardinality. -/
theorem c5_score_identity_and_range :
    (∀ (s : Sig) (n : Nat), isContainer s = true → sigLen s = .ok n → 0 < n →
      compare_sigs s s = .ok 1) ∧
    (∀ (a b : Sig) (na nb : Nat), isContainer a = true → isContainer b = true →
      sigLen a = .ok na → sigLen b = .ok nb → 0 < na → 0 < nb →
      ∃ q : ℚ, compare_sigs a b = .ok q ∧ 0 ≤ q ∧ q ≤ 1) := by
  constructor
  · intro s n hc hlen hpos
    cases s with
    | scalar s => simp [isContainer] at hc
    | tup a b => simp [isContainer] at hc
    | mapE k v => simp [isContainer] at hc
    | absent => simp [isContainer] at hc
    | fnil =>
      simp only [sigLen] at hlen
      injection hlen with h
      omega
    | fcons h t =>
      simp only [sigLen] at hlen
      have hL : chainLen (.fcons h t) = n := by injection hlen
      have hTF : msetInterLen (toFields (.fcons h t)) (toFields (.fcons h t)) =
          chainLen (.fcons h t) := by
        rw [msetInterLen_self, chainLen_toFields]
      have hn0 : n ≠ 0 := Nat.pos_iff_ne_zero.mp hpos
      simp only [compare_sigs, sigLen, interCount, bind, Except.bind, hTF, hL]
      rw [if_neg (by simpa using hn0), if_neg hn0]
      have hq : (n:ℚ) ≠ 0 := Nat.cast_ne_zero.mpr hn0
      simp [min_self, max_self, div_self hq]
    | eset l =>
      simp only [sigLen] at hlen
      have hL : l.length = n := by injection hlen
      have hfilter : l.filter (fun x => x ∈ l) = l :=
        List.filter_eq_self.mpr (fun a ha => by simpa using ha)
      have hn0 : n ≠ 0 := Nat.pos_iff_ne_zero.mp hpos
      simp only [compare_sigs, sigLen, interCount, bind, Except.bind, hfilter, hL]
      rw [if_neg (by simpa using hn0), if_neg hn0]
      have hq : (n:ℚ) ≠ 0 := Nat.cast_ne_zero.mpr hn0
      simp [min_self, max_self, div_self hq]
  · intro a b na nb hca hcb hla hlb hpa hpb
    have hmaxne : ¬ (max na nb = 0) := by omega
    have hnane : ¬ (na = 0) := by omega
    have step : ∀ i : Nat, i ≤ na →
        interCount a b = .ok i →
        ∃ q : ℚ, compare_sigs a b = .ok q ∧ 0 ≤ q ∧ q ≤ 1 := by
      intro i hi hint
      refine ⟨((i : ℚ) / (na : ℚ)) * (((min na nb : Nat) : ℚ) / ((max na nb : Nat) : ℚ)),
        ?_, (score_in_unit i na nb hpa hpb hi).1, (score_in_unit i na nb hpa hpb hi).2⟩
      simp only [compare_sigs, bind, Except.bind, hla, hlb, hint]
      rw [if_neg hmaxne, if_neg hnane]
    cases a with
    | scalar s => simp [isContainer] at hca
    | tup x y => simp [isContainer] at hca
    | mapE k v => simp [isContainer] at hca
    | absent => simp [isContainer] at hca
    | fnil =>
      simp only [sigLen] at hla
      injection hla with h
      omega
    | fcons h t =>
      cases b with
      | scalar s => simp [isContainer] at hcb
      | tup x y => simp [isContainer] at hcb
      | mapE k v => simp [isContainer] at hcb
      | absent => simp [isContainer] at hcb
      | fnil =>
        simp only [sigLen] at hlb
        injection hlb with hh
        omega
      | fcons h2 t2 =>
        refine step _ ?_ rfl
        simp only [sigLen] at hla
        have hL : chainLen (.fcons h t) = na := by injection hla
        rw [← hL, chainLen_toFields]
        exact msetInterLen_le_left _ _
      | eset l2 =>
        exact step 0 (Nat.zero_le _) rfl
    | eset l =>
      cases b with
      | scalar s => simp [isContainer] at hcb
      | tup x y => simp [isContainer] at hcb
      | mapE k v => simp [isContainer] at hcb
      | absent => simp [isContainer] at hcb
      | fnil =>
        simp only [sigLen] at hlb
        injection hlb with hh
        omega
      | fcons h2 t2 =>
        exact step 0 (Nat.zero_le _) rfl
      | eset l2 =>
        refine step _ ?_ rfl
        simp only [sigLen] at hla
        have hL : l.length = na := by injection hla
        rw [← hL]
        exact List.length_filter_le _ _

theorem c5_score_identity_and_range_witness :
    compare_sigs sigInt32 sigInt32 = .ok 1 ∧
    (∃ q : ℚ, compare_sigs sigInt32 (mkEset [5]) = .ok q ∧ 0 ≤ q ∧ q ≤ 1) :=
  ⟨c5_score_identity_and_range.1 sigInt32 1 (by decide) (by decide) (by decide),
   c5_score_identity_and_range.2 sigInt32 (mkEset [5]) 1 1 (by decide) (by decide)
     (by decide) (by decide) (by decide) (by decide)⟩

/-- C6 counterexample: the claim quantifies over *every* message
descriptor, but for a descriptor flagged as a map-entry helper the two
synthesized fields are positional (key, value): permuting them swaps the
key and value of the resulting `MapEntrySignature`, producing a different
signature. -/
theorem c6_map_entry_swap_counterexample :
    get_signature envEmpty 10 [] "E" (some (.msg mapEntryKV)) =
      .ok (.mapE (.scalar "int32") (.scalar "string"), [], ["E"]) ∧
    get_signature envEmpty 10 [] "E" (some (.msg mapEntryVK)) =
      .ok (.mapE (.scalar "string") (.scalar "int32"), [], ["E"]) ∧
    mapEntryKV.fields.Perm mapEntryVK.fields ∧
    Sig.mapE (.scalar "int32") (.scalar "string") ≠
      Sig.mapE (.scalar "string") (.scalar "int32") := by
  refine ⟨by decide, by decide, ?_, by decide⟩
  exact List.Perm.swap _ _ []

/-- C6 (amended): for every message descriptor not flagged as a map-entry
helper, permuting the declared field list yields exactly the same
signature computation result — same signature value, same final map and
same trace — whenever every type name referenced by the fields is already
registered in the signature map and the fuel covers the field list
(the situation of every memoized cross-reference); and a message
containing two structurally identical fields produces a signature of
shallow cardinality 2, while the single-field message has cardinality 1
(multiplicity is preserved). -/
theorem c6_field_permutation_invariance :
    (∀ (env : GenEnv) (fuel : Nat) (m : SigMap) (name mname : String)
       (l1 l2 : List FieldD) (nested : List MsgD) (enums : List EnumD) (cnt : Nat),
       l1.Perm l2 →
       (∀ f ∈ l1, ∀ tn, f.typeName = some tn →
         (lookupA m (strip_proto_name env.pkg tn)).isSome) →
       l1.length + 4 ≤ fuel →
       get_signature env fuel m name (some (.msg (.mk mname l1 nested enums cnt false))) =
         get_signature env fuel m name (some (.msg (.mk mname l2 nested enums cnt false)))) ∧
    (∀ (env : GenEnv) (fuel : Nat) (m : SigMap) (name mname : String) (f : FieldD),
       f.typeName = none → f.oneofIndex = none → lookupA m name = none →
       get_signature env (fuel+6) m name (some (.msg (.mk mname [f, f] [] [] 0 false))) =
         .ok (mkFset [.scalar (labelStr f.label ++ typeToken f.ftype),
                      .scalar (labelStr f.label ++ typeToken f.ftype)], m, [name]) ∧
       chainLen (mkFset [.scalar (labelStr f.label ++ typeToken f.ftype),
                         .scalar (labelStr f.label ++ typeToken f.ftype)]) = 2 ∧
       get_signature env (fuel+6) m name (some (.msg (.mk mname [f] [] [] 0 false))) =
         .ok (mkFset [.scalar (labelStr f.label ++ typeToken f.ftype)], m, [name]) ∧
       chainLen (mkFset [.scalar (labelStr f.label ++ typeToken f.ftype)]) = 1) := by
  constructor
  · intro env fuel m name mname l1 l2 nested enums cnt hperm href hfuel
    obtain ⟨F, rfl⟩ : ∃ F, fuel = F + 1 := ⟨fuel - 1, by omega⟩
    unfold get_signature
    cases hmm : lookupA m name with
    | some s => rfl
    | none =>
      simp only [bind, Except.bind, resolveProto]
      cases hpn : processNested env F m name nested with
      | error e => rfl
      | ok pr =>
        obtain ⟨m1, t1⟩ := pr
        dsimp only
        have href2 : ∀ f ∈ l1, ∀ tn, f.typeName = some tn →
            (lookupA (registerEnums name m1 enums) (strip_proto_name env.pkg tn)).isSome := by
          intro f hf tn htn
          refine registerEnums_mono name enums m1 _ ?_
          exact (gen_state_mono F).2.1 env m name nested (m1, t1) hpn _ (href f hf tn htn)
        have href2' : ∀ f ∈ l2, ∀ tn, f.typeName = some tn →
            (lookupA (registerEnums name m1 enums) (strip_proto_name env.pkg tn)).isSome :=
          fun f hf => href2 f (hperm.mem_iff.mpr hf)
        have hlen2 : l2.length = l1.length := hperm.length_eq.symm
        by_cases hidx : ∀ f ∈ l1, ∀ i, f.oneofIndex = some i →
            i < (List.replicate cnt ([] : List Sig)).length
        · have hidx' : ∀ f ∈ l2, ∀ i, f.oneofIndex = some i →
              i < (List.replicate cnt ([] : List Sig)).length :=
            fun f hf => hidx f (hperm.mem_iff.mpr hf)
          rw [processFields_memo env l1 F (registerEnums name m1 enums)
                (List.replicate cnt []) href2 hidx (by omega),
              processFields_memo env l2 F (registerEnums name m1 enums)
                (List.replicate cnt []) href2' hidx' (by omega)]
          dsimp only
          have hB : List.Forall₂ List.Perm
              (bucketsOf env (registerEnums name m1 enums) (List.replicate cnt []) l1)
              (bucketsOf env (registerEnums name m1 enums) (List.replicate cnt []) l2) :=
            bucketsOf_perm env (registerEnums name m1 enums) hperm _ _
              (forall2_perm_refl _)
          have hmk : mkFset (entriesOf env (registerEnums name m1 enums) l1 ++
              (bucketsOf env (registerEnums name m1 enums) (List.replicate cnt []) l1).map
                (fun b => Sig.tup "oneof" (mkFset b))) =
              mkFset (entriesOf env (registerEnums name m1 enums) l2 ++
              (bucketsOf env (registerEnums name m1 enums) (List.replicate cnt []) l2).map
                (fun b => Sig.tup "oneof" (mkFset b))) := by
            rw [map_tup_mkFset_eq hB]
            exact mkFset_perm
              ((entriesOf_perm env (registerEnums name m1 enums) hperm).append
                (List.Perm.refl _))
          rw [hmk]
          simp
        · have hbad : ∃ f ∈ l1, ∃ i, f.oneofIndex = some i ∧
              ¬ i < (List.replicate cnt ([] : List Sig)).length := by
            push_neg at hidx
            obtain ⟨f, hf, i, hi, hni⟩ := hidx
            exact ⟨f, hf, i, hi, by omega⟩
          have hbad' : ∃ f ∈ l2, ∃ i, f.oneofIndex = some i ∧
              ¬ i < (List.replicate cnt ([] : List Sig)).length := by
            obtain ⟨f, hf, i, hi, hni⟩ := hbad
            exact ⟨f, hperm.mem_iff.mp hf, i, hi, hni⟩
          rw [processFields_idxErr env l1 F (registerEnums name m1 enums)
                (List.replicate cnt []) href2 (by omega) hbad,
              processFields_idxErr env l2 F (registerEnums name m1 enums)
                (List.replicate cnt []) href2' (by omega) hbad']
  · intro env fuel m name mname f htn hoi hmiss
    have hrefs : ∀ (l : List FieldD), (∀ g ∈ l, g = f) →
        ∀ g ∈ l, ∀ tn, g.typeName = some tn →
        (lookupA m (strip_proto_name env.pkg tn)).isSome := by
      intro l hl g hg tn htn'
      rw [hl g hg, htn] at htn'
      cases htn'
    have hidxs : ∀ (l : List FieldD), (∀ g ∈ l, g = f) →
        ∀ g ∈ l, ∀ i, g.oneofIndex = some i →
        i < (List.replicate 0 ([] : List Sig)).length := by
      intro l hl g hg i hoi'
      rw [hl g hg, hoi] at hoi'
      cases hoi'
    have hall2 : ∀ g ∈ [f, f], g = f := by
      intro g hg
      rcases List.mem_cons.mp hg with rfl | hg'
      · rfl
      · simpa using hg'
    have hall1 : ∀ g ∈ [f], g = f := by
      intro g hg
      simpa using hg
    have hpf2 : processFields env (fuel+5) m (List.replicate 0 []) [f, f] =
        .ok (entriesOf env m [f, f], bucketsOf env m (List.replicate 0 []) [f, f], m, []) :=
      processFields_memo env [f, f] (fuel+5) m (List.replicate 0 [])
        (hrefs [f, f] hall2) (hidxs [f, f] hall2)
        (by simp only [List.length_cons, List.length_nil]; omega)
    have hpf1 : processFields env (fuel+5) m (List.replicate 0 []) [f] =
        .ok (entriesOf env m [f], bucketsOf env m (List.replicate 0 []) [f], m, []) :=
      processFields_memo env [f] (fuel+5) m (List.replicate 0 [])
        (hrefs [f] hall1) (hidxs [f] hall1)
        (by simp only [List.length_cons, List.length_nil]; omega)
    have hent2 : entriesOf env m [f, f] =
        [Sig.scalar (labelStr f.label ++ typeToken f.ftype),
         Sig.scalar (labelStr f.label ++ typeToken f.ftype)] := by
      simp [entriesOf, fieldEntry, htn, hoi, List.filter_cons]
    have hent1 : entriesOf env m [f] =
        [Sig.scalar (labelStr f.label ++ typeToken f.ftype)] := by
      simp [entriesOf, fieldEntry, htn, hoi, List.filter_cons]
    have hbuck2 : bucketsOf env m (List.replicate 0 []) [f, f] = [] := by
      simp [bucketsOf, hoi, List.replicate]
    have hbuck1 : bucketsOf env m (List.replicate 0 []) [f] = [] := by
      simp [bucketsOf, hoi, List.replicate]
    refine ⟨?_, by rw [chainLen_mkFset]; rfl, ?_, by rw [chainLen_mkFset]; rfl⟩
    · show get_signature env ((fuel+5)+1) m name _ = _
      unfold get_signature
      rw [hmiss]
      simp only [bind, Except.bind, resolveProto]
      have hnest : processNested env (fuel+5) m name [] = .ok (m, []) := rfl
      rw [hnest]
      dsimp only
      rw [show registerEnums name m [] = m from rfl, hpf2]
      dsimp only
      rw [hent2, hbuck2]
      simp
    · show get_signature env ((fuel+5)+1) m name _ = _
      unfold get_signature
      rw [hmiss]
      simp only [bind, Except.bind, resolveProto]
      have hnest : processNested env (fuel+5) m name [] = .ok (m, []) := rfl
      rw [hnest]
      dsimp only
      rw [show registerEnums name m [] = m from rfl, hpf1]
      dsimp only
      rw [hent1, hbuck1]
      simp

theorem c6_field_permutation_invariance_witness :
    (get_signature envAB 10 [("B", sigInt32)] "A"
        (some (.msg (.mk "A" [⟨.optionalLbl, .tMessage, some ".B", none⟩,
                             ⟨.optionalLbl, .tInt32, none, none⟩] [] [] 0 false))) =
      get_signature envAB 10 [("B", sigInt32)] "A"
        (some (.msg (.mk "A" [⟨.optionalLbl, .tInt32, none, none⟩,
                             ⟨.optionalLbl, .tMessage, some ".B", none⟩] [] [] 0 false)))) ∧
    (get_signature envAB 6 [] "M"
        (some (.msg (.mk "M" [⟨.optionalLbl, .tInt32, none, none⟩,
                             ⟨.optionalLbl, .tInt32, none, none⟩] [] [] 0 false))) =
      .ok (mkFset [.scalar "int32", .scalar "int32"], [], ["M"]) ∧
     chainLen (mkFset [.scalar "int32", .scalar "int32"]) = 2 ∧
     get_signature envAB 6 [] "M"
        (some (.msg (.mk "M" [⟨.optionalLbl, .tInt32, none, none⟩] [] [] 0 false))) =
      .ok (mkFset [.scalar "int32"], [], ["M"]) ∧
     chainLen (mkFset [.scalar "int32"]) = 1) := by
  constructor
  · exact c6_field_permutation_invariance.1 envAB 10 [("B", sigInt32)] "A" "A"
      [⟨.optionalLbl, .tMessage, some ".B", none⟩, ⟨.optionalLbl, .tInt32, none, none⟩]
      [⟨.optionalLbl, .tInt32, none, none⟩, ⟨.optionalLbl, .tMessage, some ".B", none⟩]
      [] [] 0 (List.Perm.swap _ _ []) (by decide) (by decide)
  · exact c6_field_permutation_invariance.2 envAB 0 [] "M" "M"
      ⟨.optionalLbl, .tInt32, none, none⟩ rfl rfl rfl

/-- C7: every successful `get_matches` run scores the target against the
non-nested candidates only, discards scores below the threshold, ranks the
survivors by `score + 0.5 * (1 - (index + 1) / |candidateOrder|)` in
descending combined key with ties broken by the score map's insertion
order (a stable sort), and returns at most the display limit of entries:
the result is the `limit`-prefix of a permutation of the survivor list
that is sorted under the stable descending order `matchRel`. -/
theorem c7_get_matches_ranking (threshold : ℚ) (limit : Nat) (matchSig : Sig)
    (proto2sig : SigMap) (protoList : List String) (res : List (String × ℚ))
    (h : get_matches threshold limit matchSig proto2sig protoList = .ok res) :
    res.length ≤ limit ∧
    (∀ p ∈ res, threshold ≤ p.2 ∧ hasDot p.1 = false ∧
      ∃ sig, (p.1, sig) ∈ proto2sig ∧ compare_sigs matchSig sig = .ok p.2) ∧
    res.Pairwise (fun a b => matchKey protoList b ≤ matchKey protoList a) ∧
    (∃ (svs : List (String × ℚ)) (annotated : List (Nat × (String × ℚ))),
      buildScores matchSig threshold proto2sig = .ok svs ∧
      annotated.Perm (withIdx 0 svs) ∧
      annotated.Pairwise (matchRel protoList) ∧
      res = (annotated.map (fun p => p.2)).take limit) := by
  unfold get_matches at h
  cases hb : buildScores matchSig threshold proto2sig with
  | error e => rw [hb] at h; simp [bind, Except.bind] at h
  | ok svs =>
    rw [hb] at h
    simp only [bind, Except.bind] at h
    by_cases hemp : svs.isEmpty
    · rw [if_pos hemp] at h
      have hres : res = [] := by
        injection h with h
        exact h.symm
      subst hres
      have hnil : svs = [] := List.isEmpty_iff.mp hemp
      subst hnil
      exact ⟨by simp, by intro p hp; simp at hp, List.Pairwise.nil,
        [], [], rfl, by simp [withIdx], List.Pairwise.nil, by simp⟩
    · rw [if_neg hemp] at h
      by_cases hall : svs.all (fun p => protoList.contains p.1)
      · rw [if_pos hall] at h
        injection h with h
        subst h
        set annotated := List.insertionSort (matchRel protoList) (withIdx 0 svs) with hann
        have hperm : annotated.Perm (withIdx 0 svs) :=
          List.perm_insertionSort (matchRel protoList) (withIdx 0 svs)
        have hsorted : annotated.Pairwise (matchRel protoList) :=
          List.sorted_insertionSort (matchRel protoList) (withIdx 0 svs)
        have hmem_res : ∀ p ∈ (sortMatches protoList svs).take limit,
            threshold ≤ p.2 ∧ hasDot p.1 = false ∧
            ∃ sig, (p.1, sig) ∈ proto2sig ∧ compare_sigs matchSig sig = .ok p.2 := by
          intro p hp
          have hp1 : p ∈ sortMatches protoList svs := List.mem_of_mem_take hp
          unfold sortMatches at hp1
          obtain ⟨q, hq, rfl⟩ := List.mem_map.mp hp1
          have hq2 : q ∈ withIdx 0 svs := hperm.mem_iff.mp hq
          exact buildScores_mem matchSig threshold proto2sig svs hb q.2
            (mem_withIdx 0 svs q hq2)
        refine ⟨List.length_take_le _ _, hmem_res, ?_, svs, annotated, rfl, hperm, hsorted, rfl⟩
        have hpw : (annotated.map (fun p => p.2)).Pairwise
            (fun a b => matchKey protoList b ≤ matchKey protoList a) := by
          refine List.Pairwise.map _ ?_ hsorted
          intro a b hab
          rcases hab with hab | ⟨hab, _⟩
          · exact le_of_lt hab
          · exact le_of_eq hab.symm
        exact hpw.sublist (List.take_sublist _ _)
      · rw [if_neg hall] at h
        simp at h

theorem c7_get_matches_ranking_witness :
    ([(("P" : String), (1:ℚ))].length ≤ 5) ∧
    (∀ p ∈ [(("P" : String), (1:ℚ))], (1/2 : ℚ) ≤ p.2 ∧ hasDot p.1 = false ∧
      ∃ sig, (p.1, sig) ∈ [("P", sigInt32), ("Q", sigBool)] ∧
        compare_sigs sigInt32 sig = .ok p.2) ∧
    ([(("P" : String), (1:ℚ))].Pairwise
      (fun a b => matchKey ["P", "Q"] b ≤ matchKey ["P", "Q"] a)) ∧
    (∃ (svs : List (String × ℚ)) (annotated : List (Nat × (String × ℚ))),
      buildScores sigInt32 (1/2) [("P", sigInt32), ("Q", sigBool)] = .ok svs ∧
      annotated.Perm (withIdx 0 svs) ∧
      annotated.Pairwise (matchRel ["P", "Q"]) ∧
      [(("P" : String), (1:ℚ))] = (annotated.map (fun p => p.2)).take 5) :=
  c7_get_matches_ranking (1/2) 5 sigInt32 [("P", sigInt32), ("Q", sigBool)] ["P", "Q"]
    [("P", 1)] (by with_unfolding_all decide)

/-- C8: whenever the signature generator actually computes (memo miss) the
signature of a message descriptor flagged as a map-entry helper and
succeeds, the result is a `MapEntrySignature` built from the two computed
(key, value) field entries — never a `FieldSetSignature` multiset,
regardless of the shape of the fields. -/
theorem c8_map_entry_flag_yields_map_signature (env : GenEnv) (fuel : Nat) (m : SigMap)
    (name : String) (msg : MsgD) (res : Sig × SigMap × List String)
    (hflag : msg.isMapEntry = true)
    (hmiss : lookupA m name = none)
    (h : get_signature env fuel m name (some (.msg msg)) = .ok res) :
    ∃ k v, res.1 = .mapE k v := by
  match fuel with
  | 0 => exact absurd h (by simp [get_signature])
  | fuel+1 =>
    obtain ⟨mname, fields, nested, enums, cnt, isME⟩ := msg
    simp only [MsgD.isMapEntry] at hflag
    subst hflag
    unfold get_signature at h
    rw [hmiss] at h
    simp only [resolveProto, bind, Except.bind] at h
    cases hpn : processNested env fuel m name nested with
    | error e => rw [hpn] at h; simp at h
    | ok pr =>
      obtain ⟨m1, t1⟩ := pr
      rw [hpn] at h
      simp only at h
      cases hpf : processFields env fuel (registerEnums name m1 enums)
          (List.replicate cnt []) fields with
      | error e => rw [hpf] at h; simp at h
      | ok q =>
        obtain ⟨entries, buckets, m3, t2⟩ := q
        rw [hpf] at h
        simp only [if_true] at h
        cases hfl : entries ++ buckets.map (fun b => Sig.tup "oneof" (mkFset b)) with
        | nil => rw [hfl] at h; simp at h
        | cons x rest =>
          cases rest with
          | nil => rw [hfl] at h; simp at h
          | cons y rest2 =>
            cases rest2 with
            | nil =>
              rw [hfl] at h
              simp only at h
              injection h with h
              exact ⟨x, y, by rw [← h]⟩
            | cons z rest3 => rw [hfl] at h; simp at h

theorem c8_map_entry_flag_yields_map_signature_witness :
    ∃ k v, (Sig.mapE (.scalar "int32") (.scalar "string"), ([] : SigMap),
      ["E"]).1 = Sig.mapE k v :=
  c8_map_entry_flag_yields_map_signature envEmpty 10 [] "E" mapEntryKV
    (.mapE (.scalar "int32") (.scalar "string"), [], ["E"])
    (by decide) (by decide) (by decide)

/-- C9: the claim states that re-entrant signature computation is detected
and reported as an explicit cyclic-type error.  The code has no in-progress
marker: on the self-referential message `A { A a = 1; }` the recursion
re-enters `A` forever (a stack overflow in Python); in the fuel-indexed
embedding the computation exhausts every finite fuel instead of producing
any cyclic-type error. -/
theorem c9_self_reference_recursion_unbounded :
    ∀ fuel : Nat, get_signature envSelfRef fuel [] "A" none = .error .fuelOut := by
  have aux : ∀ fuel : Nat, ∀ m : SigMap, lookupA m "A" = none →
      get_signature envSelfRef fuel m "A" none = .error .fuelOut := by
    intro fuel
    induction fuel using Nat.strong_induction_on with
    | _ n ih =>
      match n with
      | 0 => intro m hm; rfl
      | 1 => intro m hm; unfold get_signature; rw [hm]; rfl
      | 2 => intro m hm; unfold get_signature; rw [hm]; rfl
      | 3 => intro m hm; unfold get_signature; rw [hm]; rfl
      | (j+4) =>
        intro m hm
        have hstrip : strip_proto_name envSelfRef.pkg ".A" = "A" := by decide
        have hfield : processField envSelfRef (j+2) m
            ⟨.optionalLbl, .tMessage, some ".A", none⟩ = .error .fuelOut := by
          unfold processField
          simp only [hstrip, bind, Except.bind]
          rw [ih (j+1) (by omega) m hm]
        have hfields : processFields envSelfRef (j+3) m (List.replicate 0 [])
            [⟨.optionalLbl, .tMessage, some ".A", none⟩] = .error .fuelOut := by
          unfold processFields
          simp only [bind, Except.bind]
          rw [hfield]
        unfold get_signature
        rw [hm]
        simp only [resolveProto, bind, Except.bind, msgSelfRef]
        have hnested : processNested envSelfRef (j+3) m "A" [] = .ok (m, []) := rfl
        rw [show (lookupA envSelfRef.dmap "A") = some (.msg msgSelfRef) from rfl]
        simp only [msgSelfRef]
        rw [hnested]
        simp only [registerEnums]
        rw [hfields]
  intro fuel
  exact aux fuel [] rfl

/-- C10: with `DEFAULT_EMPTY_TO_BYTES` enabled, a field referencing a named
type whose resolved signature is Python-falsy — the `Absent` sentinel of an
alias enum, an empty message multiset, or an empty enum value set — gets
its effective type token replaced with `"bytes"` and carries no nested
signature (its entry is the plain label/type string, not a
`CompositeFieldEntry`). -/
theorem c10_empty_type_collapses_to_bytes (env : GenEnv) (fuel : Nat) (m : SigMap)
    (f : FieldD) (tn : String) (s : Sig)
    (hopt : env.emptyToBytes = true)
    (htn : f.typeName = some tn)
    (hmem : lookupA m (strip_proto_name env.pkg tn) = some s)
    (hshape : s = .absent ∨ s = .fnil ∨ s = .eset []) :
    processField env (fuel+2) m f = .ok (.scalar (labelStr f.label ++ "bytes"), m, []) := by
  have hfalsy : sigFalsy s = true := by
    rcases hshape with h | h | h <;> subst h <;> rfl
  unfold processField
  rw [htn]
  simp only [bind, Except.bind]
  rw [get_signature_memo_hit env fuel m (strip_proto_name env.pkg tn) none s hmem]
  simp [hopt, hfalsy]

theorem c10_empty_type_collapses_to_bytes_witness :
    processField ⟨[], "", true⟩ 2 [("Empty", Sig.fnil)]
      ⟨.optionalLbl, .tMessage, some ".Empty", none⟩ =
      .ok (.scalar "bytes", [("Empty", Sig.fnil)], []) := by
  have h := c10_empty_type_collapses_to_bytes ⟨[], "", true⟩ 0 [("Empty", Sig.fnil)]
    ⟨.optionalLbl, .tMessage, some ".Empty", none⟩ ".Empty" Sig.fnil
    rfl rfl (by decide) (Or.inr (Or.inl rfl))
  simpa using h

end ProtoMatcher
